import Mathlib

/-!
Verification of the capture / compress / decompress / reassemble / encode
pipeline of the renderer repository.

The Rust sources are embedded shallowly:
 * bytes are modelled as natural numbers (each kept below 256 by the
   encoders);
 * the bincode "standard" configuration (variable-length integer encoding,
   little-endian) used by `compressor.rs` / `decompressor.rs` is embedded as
   executable functions on byte lists;
 * the length-prefixed packet format of `compressor.rs::spawn_thread` and the
   packet reader of `decompressor.rs::spawn_worker` are embedded as
   `encPacket` / `parsePacket`;
 * the k-way merge of `decompressor.rs::order_frames_from_worker_threads` is
   embedded as a fuel-indexed state machine (`mergeRound` / `mergeLoop`)
   whose channels are replaced by the per-reader record lists;
 * the memory-budget logic of `video_recorder.rs` / `capture_stream.rs`, the
   in-order delivery machine of `VideoRecorder`, and the duplicate-frame
   logic of `ffmpeg_pipe.rs::write` are embedded as small state machines.
-/

namespace Renderer

/-! ## Byte-level primitives -/

/-- Little-endian byte representation (`k` bytes) of `n`. -/
def leBytes : Nat → Nat → List Nat
  | 0, _ => []
  | k + 1, n => n % 256 :: leBytes k (n / 256)

/-- Value of a little-endian byte list. -/
def leVal : List Nat → Nat
  | [] => 0
  | b :: r => b + 256 * leVal r

/-- Big-endian byte representation, as written by `u64::to_be_bytes`. -/
def beBytes (k n : Nat) : List Nat := (leBytes k n).reverse

/-- Value of a big-endian byte list, as read by `u64::from_be_bytes`. -/
def beVal (l : List Nat) : Nat := leVal l.reverse

theorem leBytes_length (k n : Nat) : (leBytes k n).length = k := by
  induction k generalizing n with
  | zero => rfl
  | succ k ih => simp [leBytes, ih]

theorem beBytes_length (k n : Nat) : (beBytes k n).length = k := by
  simp [beBytes, leBytes_length]

theorem leVal_leBytes (k n : Nat) : leVal (leBytes k n) = n % 256 ^ k := by
  induction k generalizing n with
  | zero => simp [leBytes, leVal, Nat.mod_one]
  | succ k ih =>
      simp only [leBytes, leVal, ih]
      rw [pow_succ, Nat.mul_comm (256 ^ k) 256, Nat.mod_mul]

theorem beVal_beBytes (k n : Nat) : beVal (beBytes k n) = n % 256 ^ k := by
  simp [beVal, beBytes, leVal_leBytes]

theorem leVal_leBytes_of_lt {k n : Nat} (h : n < 256 ^ k) :
    leVal (leBytes k n) = n := by
  rw [leVal_leBytes, Nat.mod_eq_of_lt h]

theorem beVal_beBytes_of_lt {k n : Nat} (h : n < 256 ^ k) :
    beVal (beBytes k n) = n := by
  rw [beVal_beBytes, Nat.mod_eq_of_lt h]

/-- `read_exact` into a buffer of `n` bytes: succeeds iff `n` bytes remain. -/
def readExact (n : Nat) (l : List Nat) : Option (List Nat × List Nat) :=
  if n ≤ l.length then some (l.take n, l.drop n) else none

theorem readExact_append {l : List Nat} (r : List Nat) (h : l.length = n) :
    readExact n (l ++ r) = some (l, r) := by
  subst h
  simp [readExact, List.take_left, List.drop_left]

theorem readExact_some {n : Nat} {l a b : List Nat}
    (h : readExact n l = some (a, b)) :
    a = l.take n ∧ b = l.drop n ∧ n ≤ l.length := by
  unfold readExact at h
  split at h
  · simp_all
  · simp_all

/-! ## The bincode "standard" varint encoding

`bincode::config::standard()` encodes unsigned integers (including `usize`,
widened to `u64`, and `u32` enum discriminants) with a variable-length
encoding: values below 251 as a single byte, then markers 251/252/253 for
little-endian `u16`/`u32`/`u64` payloads. -/

def encVarint (n : Nat) : List Nat :=
  if n < 251 then [n]
  else if n < 2 ^ 16 then 251 :: leBytes 2 n
  else if n < 2 ^ 32 then 252 :: leBytes 4 n
  else 253 :: leBytes 8 n

def decVarint : List Nat → Option (Nat × List Nat)
  | [] => none
  | b :: r =>
    if b < 251 then some (b, r)
    else if b = 251 then
      match readExact 2 r with
      | some (bs, rest) => some (leVal bs, rest)
      | none => none
    else if b = 252 then
      match readExact 4 r with
      | some (bs, rest) => some (leVal bs, rest)
      | none => none
    else if b = 253 then
      match readExact 8 r with
      | some (bs, rest) => some (leVal bs, rest)
      | none => none
    else none

theorem decVarint_encVarint {n : Nat} (hn : n < 2 ^ 64) (rest : List Nat) :
    decVarint (encVarint n ++ rest) = some (n, rest) := by
  unfold encVarint
  by_cases h1 : n < 251
  · simp [decVarint, h1]
  · by_cases h2 : n < 2 ^ 16
    · simp only [if_neg h1, if_pos h2, List.cons_append, decVarint]
      rw [readExact_append rest (leBytes_length 2 n)]
      simp [leVal_leBytes_of_lt (show n < 256 ^ 2 by norm_num at h2 ⊢; omega)]
    · by_cases h3 : n < 2 ^ 32
      · simp only [if_neg h1, if_neg h2, if_pos h3, List.cons_append,
          decVarint]
        rw [readExact_append rest (leBytes_length 4 n)]
        simp [leVal_leBytes_of_lt
          (show n < 256 ^ 4 by norm_num at h3 ⊢; omega)]
      · simp only [if_neg h1, if_neg h2, if_neg h3, List.cons_append,
          decVarint]
        rw [readExact_append rest (leBytes_length 8 n)]
        simp [leVal_leBytes_of_lt
          (show n < 256 ^ 8 by norm_num at hn ⊢; omega)]

/-! ## Data model (`video_frame.rs`, `format.rs`) -/

/-- `FrameStatus` from `video_frame.rs`. -/
inductive FrameStatus
  | captured
  | dropped
  | missing
  deriving DecidableEq, Repr

/-- Derived bincode discriminant (declaration order). -/
def FrameStatus.idx : FrameStatus → Nat
  | .captured => 0
  | .dropped => 1
  | .missing => 2

def frameStatusOfIdx : Nat → Option FrameStatus
  | 0 => some .captured
  | 1 => some .dropped
  | 2 => some .missing
  | _ => none

/-- `Format` from `format.rs`. -/
inductive Format
  | rU8
  | bgraU8
  | rgbaU8
  | rgbaF16
  | rgbaF32
  deriving DecidableEq, Repr

def Format.idx : Format → Nat
  | .rU8 => 0
  | .bgraU8 => 1
  | .rgbaU8 => 2
  | .rgbaF16 => 3
  | .rgbaF32 => 4

def formatOfIdx : Nat → Option Format
  | 0 => some .rU8
  | 1 => some .bgraU8
  | 2 => some .rgbaU8
  | 3 => some .rgbaF16
  | 4 => some .rgbaF32
  | _ => none

/-- `ImageData` from `video_frame.rs`: either a still-mapped GPU buffer
(whose mapped range is the byte list) or owned bytes. -/
inductive ImageData
  | buffer (bytes : List Nat)
  | bytes (bytes : List Nat)
  deriving DecidableEq, Repr

/-- `ImageData::buffer(..).slice(..).get_mapped_range()`: only available for
the `Buffer` variant (`buffer()` panics on `Bytes`, modelled as `none`). -/
def ImageData.mappedRange : ImageData → Option (List Nat)
  | .buffer b => some b
  | .bytes _ => none

/-- `VideoFrame` from `video_frame.rs`.  The shared
`Arc<AtomicUsize>` byte counter is represented by the value bincode
serializes (the counter reading). -/
structure VideoFrame where
  status : FrameStatus
  image_data : Option ImageData
  width : Nat
  height : Nat
  format : Format
  unpadded_bytes_per_row : Nat
  padded_bytes_per_row : Nat
  frame_number : Nat
  frame_size_in_bytes : Nat
  buffer_size_in_bytes : Nat
  deriving DecidableEq, Repr

/-! ## Metadata serialization (bincode derive on `VideoFrame`)

Fields are encoded in declaration order; `Option<ImageData>` contributes a
single 0/1 tag byte because the manual `Encode` impl for `ImageData` writes
nothing and the manual `Decode` impl produces `ImageData::Bytes(vec![])`. -/

def optionTag : Option ImageData → List Nat
  | none => [0]
  | some _ => [1]

/-- bincode encoding of a `VideoFrame` (the `video_frame` field of a
packet). -/
def encVF (f : VideoFrame) : List Nat :=
  encVarint f.status.idx ++ optionTag f.image_data ++
  encVarint f.width ++ encVarint f.height ++ encVarint f.format.idx ++
  encVarint f.unpadded_bytes_per_row ++ encVarint f.padded_bytes_per_row ++
  encVarint f.frame_number ++ encVarint f.frame_size_in_bytes ++
  encVarint f.buffer_size_in_bytes

/-- Decoding of the `Option<ImageData>` field: a 0/1 tag byte; the manual
`Decode` impl for `ImageData` reads nothing and yields `Bytes(vec![])`. -/
def decTag : List Nat → Option (Option ImageData × List Nat)
  | 0 :: r => some (none, r)
  | 1 :: r => some (some (ImageData.bytes []), r)
  | _ => none

/-- bincode decoding of a `VideoFrame`; returns the remaining bytes. -/
def decVF (l : List Nat) : Option (VideoFrame × List Nat) :=
  (decVarint l).bind fun p1 =>
  (frameStatusOfIdx p1.1).bind fun st =>
  (decTag p1.2).bind fun p2 =>
  (decVarint p2.2).bind fun pw =>
  (decVarint pw.2).bind fun ph =>
  (decVarint ph.2).bind fun pf =>
  (formatOfIdx pf.1).bind fun fmt =>
  (decVarint pf.2).bind fun pu =>
  (decVarint pu.2).bind fun pp =>
  (decVarint pp.2).bind fun pn =>
  (decVarint pn.2).bind fun ps =>
  (decVarint ps.2).bind fun pb =>
  some (⟨st, p2.1, pw.1, ph.1, fmt, pu.1, pp.1, pn.1, ps.1, pb.1⟩, pb.2)

/-- Numeric fields fit in `u64`/`usize` (true of every value the Rust code
can hold). -/
def SizesOk (f : VideoFrame) : Prop :=
  f.width < 2 ^ 64 ∧ f.height < 2 ^ 64 ∧ f.unpadded_bytes_per_row < 2 ^ 64 ∧
  f.padded_bytes_per_row < 2 ^ 64 ∧ f.frame_number < 2 ^ 64 ∧
  f.frame_size_in_bytes < 2 ^ 64 ∧ f.buffer_size_in_bytes < 2 ^ 64

instance (f : VideoFrame) : Decidable (SizesOk f) := by
  unfold SizesOk; infer_instance

/-- What bincode decoding reconstructs of a `VideoFrame`'s metadata: the
custom `Decode` for `ImageData` yields `Bytes(vec![])` as a placeholder. -/
def decMeta (f : VideoFrame) : VideoFrame :=
  { f with image_data := f.image_data.map fun _ => ImageData.bytes [] }

theorem decTag_optionTag (o : Option ImageData) (rest : List Nat) :
    decTag (optionTag o ++ rest) =
      some (o.map fun _ => ImageData.bytes [], rest) := by
  cases o <;> rfl

theorem decVF_encVF {f : VideoFrame} (h : SizesOk f) (rest : List Nat) :
    decVF (encVF f ++ rest) = some (decMeta f, rest) := by
  obtain ⟨h1, h2, h3, h4, h5, h6, h7⟩ := h
  have hst : f.status.idx < 2 ^ 64 := by
    cases f.status <;> simp [FrameStatus.idx]
  have hfm : f.format.idx < 2 ^ 64 := by
    cases f.format <;> simp [Format.idx]
  have hsi : frameStatusOfIdx f.status.idx = some f.status := by
    cases f.status <;> rfl
  have hfi : formatOfIdx f.format.idx = some f.format := by
    cases f.format <;> rfl
  unfold decVF encVF
  simp only [List.append_assoc]
  rw [decVarint_encVarint hst, Option.some_bind, hsi, Option.some_bind,
    decTag_optionTag, Option.some_bind, decVarint_encVarint h1,
    Option.some_bind, decVarint_encVarint h2, Option.some_bind,
    decVarint_encVarint hfm, Option.some_bind, hfi, Option.some_bind,
    decVarint_encVarint h3, Option.some_bind, decVarint_encVarint h4,
    Option.some_bind, decVarint_encVarint h5, Option.some_bind,
    decVarint_encVarint h6, Option.some_bind, decVarint_encVarint h7,
    Option.some_bind]
  rfl

/-! ## Packet format (`compressor.rs::spawn_thread`,
`decompressor.rs::spawn_worker`)

Layout: `[ packet_len (u64 be) | video_frame_len (u64 be) | video_frame
(bincode) | image_data (raw) ]`, with
`packet_len = 8 + 8 + video_frame_len + image_len`. -/

/-- Wrapping `usize` subtraction (release-mode semantics of
`packet_len - U64_LEN - U64_LEN - video_frame_len`); callers keep
`b < 2 ^ 65`. -/
def usizeSub (a b : Nat) : Nat := (a + 2 ^ 65 - b) % 2 ^ 64

theorem usizeSub_exact {a b : Nat} (hba : b ≤ a) (ha : a < 2 ^ 64) :
    usizeSub a b = a - b := by
  unfold usizeSub
  rw [show a + 2 ^ 65 - b = (a - b) + 2 * 2 ^ 64 by omega,
    Nat.add_mul_mod_self_right, Nat.mod_eq_of_lt (by omega)]

/-- The raw image bytes a compression worker appends to a packet: the mapped
range of the frame's GPU buffer when `image_data` is present (`buffer()`
panics for the `Bytes` variant, modelled as `none`; no bytes are appended
when `image_data` is `None`). -/
def rawImage (f : VideoFrame) : Option (List Nat) :=
  match f.image_data with
  | none => some []
  | some d => d.mappedRange

/-- One length-prefixed packet as written by `compressor.rs::spawn_thread`.
`packet_len` starts at `U64_LEN + U64_LEN`, adds `video_frame_len`, then
the mapped-range length when image data is present; both length fields are
written big-endian. -/
def encPacket (f : VideoFrame) : Option (List Nat) :=
  (rawImage f).map fun img =>
    beBytes 8 (8 + 8 + (encVF f).length + img.length) ++
    beBytes 8 (encVF f).length ++ encVF f ++ img

/-- A worker's whole shard: its packets concatenated (the lz4 stream itself
is transparent: `WriteCompressor`/`BufReadDecompressor` are inverse). -/
def encShard : List VideoFrame → Option (List Nat)
  | [] => some []
  | f :: r =>
    (encPacket f).bind fun p => (encShard r).bind fun s => some (p ++ s)

/-- One iteration of the reader loop in `decompressor.rs::spawn_worker`:
read and decode `packet_len`, `video_frame_len`, the bincode frame, then
the raw image bytes when the decoded frame has image data.  Any failed read
or decode stops the reader (`none`). -/
def parsePacket (l : List Nat) : Option (VideoFrame × List Nat) :=
  (readExact 8 l).bind fun pl =>
  (readExact 8 pl.2).bind fun vl =>
  (readExact (beVal vl.1) vl.2).bind fun vb =>
  (decVF vb.1).bind fun pv =>
  match pv.1.image_data with
  | none => some (pv.1, vb.2)
  | some _ =>
    (readExact (usizeSub (beVal pl.1) (8 + 8 + beVal vl.1)) vb.2).bind
      fun ib =>
      some ({ pv.1 with image_data := some (ImageData.bytes ib.1) }, ib.2)

theorem parsePacket_shrink {l : List Nat} {f : VideoFrame} {rest : List Nat}
    (h : parsePacket l = some (f, rest)) : rest.length + 16 ≤ l.length := by
  unfold parsePacket at h
  cases hpl : readExact 8 l with
  | none => rw [hpl] at h; simp at h
  | some pl =>
    rw [hpl] at h
    simp only [Option.some_bind] at h
    obtain ⟨hpl1, hpl2, hpl3⟩ := readExact_some hpl
    cases hvl : readExact 8 pl.2 with
    | none => rw [hvl] at h; simp at h
    | some vl =>
      rw [hvl] at h
      simp only [Option.some_bind] at h
      obtain ⟨hvl1, hvl2, hvl3⟩ := readExact_some hvl
      cases hvb : readExact (beVal vl.1) vl.2 with
      | none => rw [hvb] at h; simp at h
      | some vb =>
        rw [hvb] at h
        simp only [Option.some_bind] at h
        obtain ⟨hvb1, hvb2, hvb3⟩ := readExact_some hvb
        have hvl3' : 8 ≤ pl.2.length := hvl3
        have hlen : vb.2.length + 16 ≤ l.length := by
          rw [hvb2, hvl2, hpl2]
          rw [hvl2, hpl2] at hvb3
          rw [hpl2] at hvl3'
          simp only [List.length_drop] at *
          omega
        cases hdv : decVF vb.1 with
        | none => rw [hdv] at h; simp at h
        | some pv =>
          rw [hdv] at h
          simp only [Option.some_bind] at h
          cases hi : pv.1.image_data with
          | none =>
            rw [hi] at h
            simp only [Option.some.injEq, Prod.mk.injEq] at h
            rw [← h.2]
            exact hlen
          | some d =>
            rw [hi] at h
            cases hib : readExact (usizeSub (beVal pl.1)
                (8 + 8 + beVal vl.1)) vb.2 with
            | none => rw [hib] at h; simp at h
            | some ib =>
              rw [hib] at h
              obtain ⟨hib1, hib2, hib3⟩ := readExact_some hib
              simp only [Option.some_bind, Option.some.injEq,
                Prod.mk.injEq] at h
              have hle : ib.2.length ≤ vb.2.length := by
                rw [hib2]; simp [List.length_drop]
              rw [← h.2]
              omega

/-- Fuel-indexed reader loop; fuel is spent once per packet. -/
def decodeShardAux : Nat → List Nat → List VideoFrame
  | 0, _ => []
  | fuel + 1, l =>
    match parsePacket l with
    | none => []
    | some (f, rest) => f :: decodeShardAux fuel rest

/-- All records a shard reader produces before it stops
(`decompressor.rs::spawn_worker`). -/
def decodeShard (l : List Nat) : List VideoFrame :=
  decodeShardAux l.length l

theorem decodeShardAux_congr :
    ∀ fuel₁ fuel₂ (l : List Nat), l.length ≤ fuel₁ → l.length ≤ fuel₂ →
      decodeShardAux fuel₁ l = decodeShardAux fuel₂ l := by
  intro fuel₁
  induction fuel₁ with
  | zero =>
    intro fuel₂ l h1 _
    have : l = [] := List.length_eq_zero.mp (by omega)
    subst this
    cases fuel₂ with
    | zero => rfl
    | succ k =>
      simp only [decodeShardAux]
      have : parsePacket [] = none := by rfl
      rw [this]
  | succ fuel ih =>
    intro fuel₂ l h1 h2
    cases fuel₂ with
    | zero =>
      have : l = [] := List.length_eq_zero.mp (by omega)
      subst this
      simp only [decodeShardAux]
      have : parsePacket [] = none := by rfl
      rw [this]
    | succ k =>
      simp only [decodeShardAux]
      cases hp : parsePacket l with
      | none => rfl
      | some pr =>
        obtain ⟨f, rest⟩ := pr
        have hs := parsePacket_shrink hp
        show f :: decodeShardAux fuel rest = f :: decodeShardAux k rest
        rw [ih k rest (by omega) (by omega)]

theorem decodeShard_eq (l : List Nat) :
    decodeShard l =
      match parsePacket l with
      | none => []
      | some (f, rest) => f :: decodeShard rest := by
  unfold decodeShard
  cases hl : l.length with
  | zero =>
    have : l = [] := List.length_eq_zero.mp hl
    subst this
    have : parsePacket [] = none := by rfl
    simp [decodeShardAux, this]
  | succ k =>
    simp only [decodeShardAux]
    cases hp : parsePacket l with
    | none => rfl
    | some pr =>
      obtain ⟨f, rest⟩ := pr
      have hs := parsePacket_shrink hp
      show f :: decodeShardAux k rest = f :: decodeShardAux rest.length rest
      rw [decodeShardAux_congr k rest.length rest (by omega) (by omega)]

/-- Length of the packet a worker writes for `f` (the value of its
`packet_len` field before `u64` wrapping). -/
def packetBytesLen (f : VideoFrame) : Nat :=
  8 + 8 + (encVF f).length +
    (match rawImage f with
     | some img => img.length
     | none => 0)

/-- A frame a compression worker can serialize: metadata fits in `u64`s,
its payload (if any) is still buffer-backed, and the packet length fits in
a `u64`. -/
def PacketOk (f : VideoFrame) : Prop :=
  SizesOk f ∧ (rawImage f).isSome = true ∧ packetBytesLen f < 2 ^ 64

instance (f : VideoFrame) : Decidable (PacketOk f) := by
  unfold PacketOk; infer_instance

/-- The record the shard reader reconstructs from `f`'s packet: metadata
identical, a buffer-backed payload turned into the owned bytes that were
compressed. -/
def decFrame (f : VideoFrame) : VideoFrame :=
  { f with
    image_data := f.image_data.map fun d =>
      ImageData.bytes (d.mappedRange.getD []) }

theorem decVF_encVF_nil {f : VideoFrame} (h : SizesOk f) :
    decVF (encVF f) = some (decMeta f, []) := by
  have := decVF_encVF h []
  rwa [List.append_nil] at this

theorem parsePacket_encPacket {f : VideoFrame} (h : PacketOk f)
    (rest : List Nat) :
    ∃ p, encPacket f = some p ∧
      parsePacket (p ++ rest) = some (decFrame f, rest) := by
  obtain ⟨hsz, hraw, hlen⟩ := h
  cases hid : f.image_data with
  | none =>
    have hri : rawImage f = some [] := by unfold rawImage; rw [hid]
    have hlen' : 8 + 8 + (encVF f).length < 2 ^ 64 := by
      unfold packetBytesLen at hlen
      rw [hri] at hlen
      simpa using hlen
    refine ⟨beBytes 8 (8 + 8 + (encVF f).length) ++
      (beBytes 8 (encVF f).length ++ encVF f), ?_, ?_⟩
    · rw [encPacket, hri]
      simp only [Option.map_some', List.append_nil, List.append_assoc,
        List.length_nil, Nat.add_zero]
    have hL : beVal (beBytes 8 (encVF f).length) = (encVF f).length :=
      beVal_beBytes_of_lt (by norm_num; omega)
    unfold parsePacket
    simp only [List.append_assoc]
    rw [readExact_append _ (beBytes_length 8 _), Option.some_bind,
      readExact_append _ (beBytes_length 8 _), Option.some_bind, hL,
      readExact_append rest rfl, Option.some_bind, decVF_encVF_nil hsz,
      Option.some_bind]
    show (match (decMeta f).image_data with
      | none => some (decMeta f, rest)
      | some _ => _) = some (decFrame f, rest)
    have h2 : (decMeta f).image_data = none := by
      simp [decMeta, hid]
    rw [h2]
    have h3 : decFrame f = decMeta f := by
      simp [decFrame, decMeta, hid]
    rw [h3]
  | some d =>
    cases d with
    | bytes b =>
      exfalso
      rw [rawImage, hid] at hraw
      simp [ImageData.mappedRange] at hraw
    | buffer b =>
      have hri : rawImage f = some b := by unfold rawImage; rw [hid]; rfl
      have hlen' : 8 + 8 + (encVF f).length + b.length < 2 ^ 64 := by
        unfold packetBytesLen at hlen
        rw [hri] at hlen
        simpa using hlen
      refine ⟨beBytes 8 (8 + 8 + (encVF f).length + b.length) ++
        (beBytes 8 (encVF f).length ++ (encVF f ++ b)), ?_, ?_⟩
      · rw [encPacket, hri]
        simp only [Option.map_some', List.append_assoc]
      have hL : beVal (beBytes 8 (encVF f).length) = (encVF f).length :=
        beVal_beBytes_of_lt (by norm_num; omega)
      have hP : beVal (beBytes 8 (8 + 8 + (encVF f).length + b.length)) =
          8 + 8 + (encVF f).length + b.length :=
        beVal_beBytes_of_lt (by norm_num; omega)
      unfold parsePacket
      simp only [List.append_assoc]
      rw [readExact_append _ (beBytes_length 8 _), Option.some_bind,
        readExact_append _ (beBytes_length 8 _), Option.some_bind, hP, hL,
        readExact_append (b ++ rest) rfl, Option.some_bind,
        decVF_encVF_nil hsz, Option.some_bind]
      show (match (decMeta f).image_data with
        | none => some (decMeta f, b ++ rest)
        | some _ =>
          (readExact (usizeSub (8 + 8 + (encVF f).length + b.length)
              (8 + 8 + (encVF f).length)) (b ++ rest)).bind fun ib =>
            some ({ decMeta f with
              image_data := some (ImageData.bytes ib.1) }, ib.2)) =
        some (decFrame f, rest)
      have h2 : (decMeta f).image_data = some (ImageData.bytes []) := by
        simp [decMeta, hid]
      rw [h2, usizeSub_exact (by omega) hlen']
      have h4 : 8 + 8 + (encVF f).length + b.length -
          (8 + 8 + (encVF f).length) = b.length := by omega
      rw [h4, readExact_append rest rfl, Option.some_bind]
      have h5 : decFrame f =
          { decMeta f with image_data := some (ImageData.bytes b) } := by
        simp [decFrame, decMeta, hid, ImageData.mappedRange]
      rw [h5]

theorem parsePacket_short {junk : List Nat} (h : junk.length < 8) :
    parsePacket junk = none := by
  unfold parsePacket readExact
  rw [if_neg (by omega)]
  rfl

/-- Shard round-trip: the reader of a shard holding the packets of `ws`
followed by unparseable bytes produces exactly the records of `ws`, with
metadata intact and buffer payloads turned into owned bytes. -/
theorem decodeShard_encShard {ws : List VideoFrame}
    (h : ∀ f ∈ ws, PacketOk f) {junk : List Nat}
    (hj : parsePacket junk = none) :
    ∃ s, encShard ws = some s ∧
      decodeShard (s ++ junk) = ws.map decFrame := by
  induction ws with
  | nil =>
    refine ⟨[], rfl, ?_⟩
    rw [List.nil_append, decodeShard_eq, hj]
    rfl
  | cons f t ih =>
    obtain ⟨s, hs, hdec⟩ := ih (fun g hg => h g (List.mem_cons_of_mem f hg))
    obtain ⟨p, hp, hparse⟩ :=
      parsePacket_encPacket (h f (List.mem_cons_self f t)) (s ++ junk)
    refine ⟨p ++ s, ?_, ?_⟩
    · rw [encShard, hp, Option.some_bind, hs, Option.some_bind]
    · rw [List.append_assoc, decodeShard_eq, hparse]
      show decFrame f :: decodeShard (s ++ junk) = _
      rw [hdec]
      rfl

/-! ## K-way merge (`decompressor.rs::order_frames_from_worker_threads`)

The per-reader channels are replaced by the list of records each reader
will deliver (in shard order); `recv` is taking the head, a closed channel
is the empty list.  The `BinaryHeap<Reverse<OrderableFrame>>` is modelled
as a list kept sorted by ascending `frame_number` (`OrderableFrame`'s `Ord`
compares `frame_number` only). -/

/-- The synthetic record built for a structural gap: `status=Missing`,
no payload, a fresh zeroed byte counter, remaining fields from
`Default::default()`. -/
def missingFrame (k : Nat) : VideoFrame :=
  ⟨.missing, none, 0, 0, .rU8, 0, 0, k, 0, 0⟩

/-- The inner `loop` of `drain_filter`: pull records from one reader,
stopping after the first one carrying image data; if the channel closes
first (`recv` fails), the reader is to be removed.  Returns (records
pulled, records left in the channel, reader removed?). -/
def drainWorker : List VideoFrame → List VideoFrame × List VideoFrame × Bool
  | [] => ([], [], true)
  | f :: rest =>
    if f.image_data.isSome then ([f], rest, false)
    else
      (f :: (drainWorker rest).1,
       (drainWorker rest).2.1, (drainWorker rest).2.2)

/-- `drain_filter` over all still-open readers, in order: every pulled
record is pushed; removed readers are dropped from the worker list. -/
def drainAll :
    List (List VideoFrame) → List VideoFrame × List (List VideoFrame)
  | [] => ([], [])
  | w :: ws =>
    ((drainWorker w).1 ++ (drainAll ws).1,
     if (drainWorker w).2.2 then (drainAll ws).2
     else (drainWorker w).2.1 :: (drainAll ws).2)

/-- `min_heap.push`: ordered insert keyed by `frame_number`. -/
def heapPush (h : List VideoFrame) (f : VideoFrame) : List VideoFrame :=
  match h with
  | [] => [f]
  | g :: r =>
    if g.frame_number < f.frame_number then g :: heapPush r f
    else f :: g :: r

def heapPushAll (h : List VideoFrame) (fs : List VideoFrame) :
    List VideoFrame :=
  fs.foldl heapPush h

/-- The inner pop loop: keep popping the heap minimum while it equals
`expected_frame`, emitting it; at the first gap the frame is pushed back.
Returns (emitted records, remaining heap, new expected_frame). -/
def emitRun : List VideoFrame → Nat → List VideoFrame × List VideoFrame × Nat
  | [], e => ([], [], e)
  | f :: r, e =>
    if f.frame_number = e then
      (f :: (emitRun r (e + 1)).1,
       (emitRun r (e + 1)).2.1, (emitRun r (e + 1)).2.2)
    else ([], f :: r, e)

/-- Outcome of one iteration of the outer `loop`. -/
inductive RoundOut
  | roundDone (out : List VideoFrame)
  | roundPanic
  | roundSpin
  | roundCont (out : List VideoFrame) (workers : List (List VideoFrame))
      (heap : List VideoFrame) (expected : Nat)

/-- One iteration of the outer `loop`: drain the readers, run the pop loop;
`return` when the heap ran dry with no readers left; continue when at least
one frame was emitted; otherwise synthesize `Missing` records up to the
heap minimum — `min_heap.peek().unwrap()` panics on an empty heap, and the
do-while synthesis loop diverges unless `expected_frame` is strictly below
the heap minimum. -/
def mergeRound (workers : List (List VideoFrame)) (heap : List VideoFrame)
    (expected : Nat) : RoundOut :=
  let dr := drainAll workers
  let h1 := heapPushAll heap dr.1
  let er := emitRun h1 expected
  if er.2.1.isEmpty && dr.2.isEmpty then .roundDone er.1
  else if !er.1.isEmpty then .roundCont er.1 dr.2 er.2.1 er.2.2
  else
    match er.2.1.head? with
    | none => .roundPanic
    | some m =>
      if er.2.2 < m.frame_number then
        .roundCont
          ((List.range' er.2.2 (m.frame_number - er.2.2)).map missingFrame)
          dr.2 er.2.1 m.frame_number
      else .roundSpin

/-- How a run of the merge coordinator ends. -/
inductive MergeEnd
  | finished
  | panicked
  | spinning
  | fuelOut
  deriving DecidableEq, Repr

/-- The outer `loop`, fuel-indexed; collects every record handed to the
`in_order_function`. -/
def mergeLoop :
    Nat → List (List VideoFrame) → List VideoFrame → Nat →
      List VideoFrame × MergeEnd
  | 0, _, _, _ => ([], .fuelOut)
  | fuel + 1, workers, heap, expected =>
    match mergeRound workers heap expected with
    | .roundDone out => (out, .finished)
    | .roundPanic => ([], .panicked)
    | .roundSpin => ([], .spinning)
    | .roundCont out ws h e =>
      let nxt := mergeLoop fuel ws h e
      (out ++ nxt.1, nxt.2)

def maxFrameNumber (l : List VideoFrame) : Nat :=
  (l.map (·.frame_number)).foldr max 0

/-- Fuel bound: every continuing round either emits a record or advances
`expected_frame`, so this suffices for any input. -/
def mergeFuel (workers : List (List VideoFrame)) : Nat :=
  (workers.map List.length).sum + maxFrameNumber workers.flatten + 2

/-- `order_frames_from_worker_threads` on the given per-reader record
lists, starting from the empty heap and `expected_frame = 1`. -/
def mergeFrames (workers : List (List VideoFrame)) :
    List VideoFrame × MergeEnd :=
  mergeLoop (mergeFuel workers) workers [] 1

/-! ### Structural facts about one merge round -/

theorem drainWorker_split (w : List VideoFrame) :
    (drainWorker w).1 ++ (drainWorker w).2.1 = w := by
  induction w with
  | nil => rfl
  | cons f rest ih =>
    unfold drainWorker
    by_cases hf : f.image_data.isSome
    · simp [hf]
    · simp only [hf, Bool.false_eq_true, if_false]
      simp only [List.cons_append, List.cons.injEq, true_and]
      exact ih

theorem drainWorker_pulled_ne_nil {w : List VideoFrame}
    (h : (drainWorker w).2.2 = false) : (drainWorker w).1 ≠ [] := by
  cases w with
  | nil => simp [drainWorker] at h
  | cons f rest =>
    unfold drainWorker
    by_cases hf : f.image_data.isSome
    · simp [hf]
    · simp [hf]

theorem drainAll_pushes_ne_nil {ws : List (List VideoFrame)}
    (h : (drainAll ws).2 ≠ []) : (drainAll ws).1 ≠ [] := by
  induction ws with
  | nil => simp [drainAll] at h
  | cons w t ih =>
    revert h
    unfold drainAll
    cases hrm : (drainWorker w).2.2 with
    | true => intro h; simp only [hrm] at h ⊢; simp_all
    | false =>
      intro h
      have := drainWorker_pulled_ne_nil hrm
      simp_all

theorem heapPush_length (h : List VideoFrame) (f : VideoFrame) :
    (heapPush h f).length = h.length + 1 := by
  induction h with
  | nil => rfl
  | cons g r ih =>
    unfold heapPush
    by_cases hg : g.frame_number < f.frame_number
    · simp [hg, ih]
    · simp [hg]

theorem heapPushAll_length (fs : List VideoFrame) (h : List VideoFrame) :
    (heapPushAll h fs).length = h.length + fs.length := by
  induction fs generalizing h with
  | nil => rfl
  | cons f t ih =>
    unfold heapPushAll at ih ⊢
    simp only [List.foldl_cons]
    rw [ih, heapPush_length]
    simp only [List.length_cons]
    omega

theorem emitRun_out_nil {h : List VideoFrame} {e : Nat}
    (he : (emitRun h e).1 = []) : (emitRun h e).2.1 = h := by
  cases h with
  | nil => rfl
  | cons f r =>
    revert he
    unfold emitRun
    by_cases hf : f.frame_number = e
    · simp [hf]
    · simp [hf]

theorem mergeRound_ne_panic (ws : List (List VideoFrame))
    (h : List VideoFrame) (e : Nat) : mergeRound ws h e ≠ .roundPanic := by
  unfold mergeRound
  by_cases hde : (emitRun (heapPushAll h (drainAll ws).1) e).2.1.isEmpty
      && (drainAll ws).2.isEmpty
  · simp [hde]
  · simp only [hde, if_false, Bool.false_eq_true]
    by_cases hout : (emitRun (heapPushAll h (drainAll ws).1) e).1.isEmpty
    · simp only [hout, Bool.not_true, Bool.false_eq_true, if_false]
      cases hh : (emitRun (heapPushAll h (drainAll ws).1) e).2.1.head? with
      | some m =>
        by_cases hlt :
            (emitRun (heapPushAll h (drainAll ws).1) e).2.2 < m.frame_number
        · simp [hlt]
        · simp [hlt]
      | none =>
        exfalso
        have hh2 : (emitRun (heapPushAll h (drainAll ws).1) e).2.1 = [] :=
          List.head?_eq_none_iff.mp hh
        have hout2 : (emitRun (heapPushAll h (drainAll ws).1) e).1 = [] :=
          List.isEmpty_iff.mp hout
        have hep := emitRun_out_nil hout2
        rw [hh2] at hep
        have hws : (drainAll ws).2 ≠ [] := by
          intro hc
          rw [hh2, hc] at hde
          simp at hde
        have hp := drainAll_pushes_ne_nil hws
        have : (heapPushAll h (drainAll ws).1).length =
            h.length + (drainAll ws).1.length := heapPushAll_length _ _
        rw [← hep] at this
        simp only [List.length_nil] at this
        have := List.length_pos.mpr hp
        omega
    · simp [hout]

theorem mergeLoop_ne_panicked :
    ∀ (fuel : Nat) (ws : List (List VideoFrame)) (h : List VideoFrame)
      (e : Nat), (mergeLoop fuel ws h e).2 ≠ .panicked := by
  intro fuel
  induction fuel with
  | zero => intro ws h e; simp [mergeLoop]
  | succ fuel ih =>
    intro ws h e
    unfold mergeLoop
    cases hr : mergeRound ws h e with
    | roundDone out => simp
    | roundPanic => exact absurd hr (mergeRound_ne_panic ws h e)
    | roundSpin => simp
    | roundCont out ws' h' e' => simpa using ih ws' h' e'

/-! ### Specification of the merged output

`canonOut rem e stop` is the reference output: for every frame number `k`
from `e` to `stop`, the unique record of `rem` carrying `k`, or a synthetic
`Missing` record when no shard holds `k`. -/

def canonEntry (rem : List VideoFrame) (k : Nat) : VideoFrame :=
  match rem.find? (fun f => f.frame_number == k) with
  | some f => f
  | none => missingFrame k

def canonOut (rem : List VideoFrame) (e stop : Nat) : List VideoFrame :=
  (List.range' e (stop + 1 - e)).map (canonEntry rem)

/-- Strictly ascending frame numbers. -/
def SortedF (l : List VideoFrame) : Prop :=
  l.Pairwise fun f g => f.frame_number < g.frame_number

/-- Pairwise distinct frame numbers. -/
def NodupF (l : List VideoFrame) : Prop :=
  l.Pairwise fun f g => f.frame_number ≠ g.frame_number

instance (l : List VideoFrame) : Decidable (SortedF l) := by
  unfold SortedF; infer_instance

instance (l : List VideoFrame) : Decidable (NodupF l) := by
  unfold NodupF; infer_instance

/-- Invariant of the merge coordinator state. -/
def MergeInv (ws : List (List VideoFrame)) (h : List VideoFrame)
    (e : Nat) : Prop :=
  (∀ w ∈ ws, SortedF w) ∧ SortedF h ∧ NodupF (ws.flatten ++ h) ∧
  (∀ f ∈ ws.flatten ++ h, e ≤ f.frame_number) ∧ 1 ≤ e

/-- Termination measure of the outer loop. -/
def mergeMeasure (ws : List (List VideoFrame)) (h : List VideoFrame)
    (e : Nat) : Nat :=
  (ws.flatten ++ h).length + (maxFrameNumber (ws.flatten ++ h) + 1 - e)

theorem maxFrameNumber_le_iff {l : List VideoFrame} {k : Nat} :
    maxFrameNumber l ≤ k ↔ ∀ f ∈ l, f.frame_number ≤ k := by
  induction l with
  | nil => simp [maxFrameNumber]
  | cons f t ih =>
    unfold maxFrameNumber at ih ⊢
    simp only [List.map_cons, List.foldr_cons, max_le_iff, ih,
      List.mem_cons]
    constructor
    · rintro ⟨h1, h2⟩ g (rfl | hg)
      · exact h1
      · exact h2 g hg
    · intro hall
      exact ⟨hall f (Or.inl rfl), fun g hg => hall g (Or.inr hg)⟩

theorem le_maxFrameNumber {l : List VideoFrame} {f : VideoFrame}
    (h : f ∈ l) : f.frame_number ≤ maxFrameNumber l :=
  maxFrameNumber_le_iff.mp (le_refl _) f h

theorem maxFrameNumber_eq_of_perm {l l' : List VideoFrame}
    (h : l.Perm l') : maxFrameNumber l = maxFrameNumber l' := by
  apply le_antisymm
  · exact maxFrameNumber_le_iff.mpr fun f hf =>
      le_maxFrameNumber (h.mem_iff.mp hf)
  · exact maxFrameNumber_le_iff.mpr fun f hf =>
      le_maxFrameNumber (h.mem_iff.mpr hf)

theorem drainWorker_retired {w : List VideoFrame}
    (h : (drainWorker w).2.2 = true) :
    (drainWorker w).1 = w ∧ (drainWorker w).2.1 = [] := by
  induction w with
  | nil => exact ⟨rfl, rfl⟩
  | cons f rest ih =>
    revert h
    unfold drainWorker
    by_cases hf : f.image_data.isSome
    · simp [hf]
    · simp only [hf, Bool.false_eq_true, if_false]
      intro h
      obtain ⟨h1, h2⟩ := ih h
      simp [h1, h2]

theorem drainWorker_survivor {w : List VideoFrame}
    (h : (drainWorker w).2.2 = false) :
    ∃ a c, (drainWorker w).1 = a ++ [c] ∧ c.image_data.isSome = true ∧
      ∀ f ∈ a, f.image_data.isSome = false := by
  induction w with
  | nil => simp [drainWorker] at h
  | cons f rest ih =>
    revert h
    unfold drainWorker
    by_cases hf : f.image_data.isSome
    · intro _
      exact ⟨[], f, by simp [hf]⟩
    · simp only [hf, Bool.false_eq_true, if_false]
      intro h
      obtain ⟨a, c, h1, h2, h3⟩ := ih h
      refine ⟨f :: a, c, by simp [h1], h2, ?_⟩
      intro g hg
      rcases List.mem_cons.mp hg with rfl | hg'
      · simpa using hf
      · exact h3 g hg'

theorem perm_append_middle {α : Type} (a b c d : List α) :
    ((a ++ b) ++ (c ++ d)).Perm ((a ++ c) ++ (b ++ d)) := by
  rw [List.append_assoc, List.append_assoc]
  apply List.Perm.append_left
  rw [← List.append_assoc, ← List.append_assoc]
  exact List.perm_append_comm.append_right d

theorem drainAll_perm (ws : List (List VideoFrame)) :
    ws.flatten.Perm ((drainAll ws).1 ++ ((drainAll ws).2).flatten) := by
  induction ws with
  | nil => simp [drainAll]
  | cons w t ih =>
    cases hrm : (drainWorker w).2.2 with
    | true =>
      obtain ⟨h1, h2⟩ := drainWorker_retired hrm
      simp only [drainAll, hrm, if_true, List.flatten_cons]
      rw [h1, List.append_assoc]
      exact ih.append_left w
    | false =>
      simp only [drainAll, hrm, Bool.false_eq_true, if_false,
        List.flatten_cons]
      have hsplit := drainWorker_split w
      nth_rewrite 1 [← hsplit]
      refine (ih.append_left _).trans ?_
      exact perm_append_middle _ _ _ _

theorem drainAll_survivor_mem {ws : List (List VideoFrame)}
    {r : List VideoFrame} (h : r ∈ (drainAll ws).2) :
    ∃ w ∈ ws, (drainWorker w).2.2 = false ∧ r = (drainWorker w).2.1 := by
  induction ws with
  | nil => simp [drainAll] at h
  | cons w t ih =>
    cases hrm : (drainWorker w).2.2 with
    | true =>
      rw [drainAll] at h
      simp only [hrm, if_true] at h
      obtain ⟨w', hw', hrm', hr⟩ := ih h
      exact ⟨w', List.mem_cons_of_mem w hw', hrm', hr⟩
    | false =>
      rw [drainAll] at h
      simp only [hrm, Bool.false_eq_true, if_false] at h
      rcases List.mem_cons.mp h with rfl | h'
      · exact ⟨w, List.mem_cons_self w t, hrm, rfl⟩
      · obtain ⟨w', hw', hrm', hr⟩ := ih h'
        exact ⟨w', List.mem_cons_of_mem w hw', hrm', hr⟩

theorem drainAll_pulled_mem {ws : List (List VideoFrame)}
    {w : List VideoFrame} (hw : w ∈ ws) {f : VideoFrame}
    (hf : f ∈ (drainWorker w).1) : f ∈ (drainAll ws).1 := by
  induction ws with
  | nil => simp at hw
  | cons w' t ih =>
    show f ∈ (drainWorker w').1 ++ (drainAll t).1
    rcases List.mem_cons.mp hw with rfl | hw'
    · exact List.mem_append_left _ hf
    · exact List.mem_append_right _ (ih hw')

theorem heapPush_perm (h : List VideoFrame) (f : VideoFrame) :
    (heapPush h f).Perm (f :: h) := by
  induction h with
  | nil => rfl
  | cons g r ih =>
    unfold heapPush
    by_cases hg : g.frame_number < f.frame_number
    · simp only [hg, if_true]
      exact (ih.cons g).trans (List.Perm.swap f g r)
    · simp only [hg, if_false]
      exact List.Perm.refl _

theorem heapPushAll_perm (fs h : List VideoFrame) :
    (heapPushAll h fs).Perm (fs ++ h) := by
  induction fs generalizing h with
  | nil => rfl
  | cons f t ih =>
    show (heapPushAll (heapPush h f) t).Perm ((f :: t) ++ h)
    refine (ih (heapPush h f)).trans ?_
    refine (List.Perm.append_left t (heapPush_perm h f)).trans ?_
    exact List.perm_middle

theorem heapPush_sorted {h : List VideoFrame} {f : VideoFrame}
    (hs : SortedF h) (hne : ∀ g ∈ h, g.frame_number ≠ f.frame_number) :
    SortedF (heapPush h f) := by
  induction h with
  | nil => simp [heapPush, SortedF]
  | cons g r ih =>
    unfold SortedF at hs
    rw [List.pairwise_cons] at hs
    obtain ⟨hg_lt, hr⟩ := hs
    unfold heapPush
    by_cases hg : g.frame_number < f.frame_number
    · simp only [hg, if_true]
      unfold SortedF
      rw [List.pairwise_cons]
      constructor
      · intro x hx
        have hx' : x ∈ f :: r := (heapPush_perm r f).mem_iff.mp hx
        rcases List.mem_cons.mp hx' with rfl | hx''
        · exact hg
        · exact hg_lt x hx''
      · exact ih hr fun x hx => hne x (List.mem_cons_of_mem g hx)
    · simp only [hg, if_false]
      have hfg : f.frame_number < g.frame_number := by
        have := hne g (List.mem_cons_self g r)
        omega
      unfold SortedF
      rw [List.pairwise_cons]
      constructor
      · intro x hx
        rcases List.mem_cons.mp hx with rfl | hx'
        · exact hfg
        · exact lt_trans hfg (hg_lt x hx')
      · rw [List.pairwise_cons]
        exact ⟨hg_lt, hr⟩

theorem heapPushAll_sorted {fs h : List VideoFrame}
    (hs : SortedF h) (hnd : NodupF (fs ++ h)) :
    SortedF (heapPushAll h fs) := by
  induction fs generalizing h with
  | nil => exact hs
  | cons f t ih =>
    show SortedF (heapPushAll (heapPush h f) t)
    unfold NodupF at hnd
    rw [List.cons_append, List.pairwise_cons] at hnd
    obtain ⟨hf_ne, hnd'⟩ := hnd
    apply ih
    · apply heapPush_sorted hs
      intro g hg hc
      exact hf_ne g (List.mem_append_right t hg) hc.symm
    · unfold NodupF
      have hperm : (t ++ heapPush h f).Perm (f :: (t ++ h)) :=
        ((heapPush_perm h f).append_left t).trans List.perm_middle
      apply (hperm.pairwise_iff fun hab => hab.symm).mpr
      rw [List.pairwise_cons]
      exact ⟨hf_ne, hnd'⟩

theorem sorted_head_min {h : List VideoFrame} {m f : VideoFrame}
    (hs : SortedF h) (hm : h.head? = some m) (hf : f ∈ h) :
    m.frame_number ≤ f.frame_number := by
  cases h with
  | nil => simp at hm
  | cons g r =>
    simp only [List.head?_cons, Option.some.injEq] at hm
    subst hm
    rw [SortedF, List.pairwise_cons] at hs
    rcases List.mem_cons.mp hf with rfl | hf'
    · exact le_refl _
    · exact le_of_lt (hs.1 f hf')

theorem emitRun_split (h : List VideoFrame) (e : Nat) :
    (emitRun h e).1 ++ (emitRun h e).2.1 = h := by
  induction h generalizing e with
  | nil => rfl
  | cons f r ih =>
    unfold emitRun
    by_cases hf : f.frame_number = e
    · rw [if_pos hf]
      show f :: ((emitRun r (e + 1)).1 ++ (emitRun r (e + 1)).2.1) = f :: r
      rw [ih (e + 1)]
    · rw [if_neg hf]
      rfl

theorem emitRun_fns (h : List VideoFrame) (e : Nat) :
    (emitRun h e).1.map (·.frame_number) =
      List.range' e (emitRun h e).1.length := by
  induction h generalizing e with
  | nil => rfl
  | cons f r ih =>
    unfold emitRun
    by_cases hf : f.frame_number = e
    · rw [if_pos hf]
      show f.frame_number :: (emitRun r (e + 1)).1.map (·.frame_number) =
        List.range' e ((emitRun r (e + 1)).1.length + 1)
      rw [List.range'_succ, hf, ih (e + 1)]
    · rw [if_neg hf]
      rfl

theorem emitRun_expected (h : List VideoFrame) (e : Nat) :
    (emitRun h e).2.2 = e + (emitRun h e).1.length := by
  induction h generalizing e with
  | nil => rfl
  | cons f r ih =>
    unfold emitRun
    by_cases hf : f.frame_number = e
    · rw [if_pos hf]
      show (emitRun r (e + 1)).2.2 = e + ((emitRun r (e + 1)).1.length + 1)
      rw [ih (e + 1)]
      omega
    · rw [if_neg hf]
      show e = e + ([] : List VideoFrame).length
      simp

theorem emitRun_stop {h : List VideoFrame} {e : Nat} {m : VideoFrame}
    (hm : (emitRun h e).2.1.head? = some m) :
    m.frame_number ≠ (emitRun h e).2.2 := by
  induction h generalizing e with
  | nil => simp [emitRun] at hm
  | cons f r ih =>
    revert hm
    unfold emitRun
    by_cases hf : f.frame_number = e
    · rw [if_pos hf]
      exact fun hm => ih hm
    · rw [if_neg hf]
      intro hm
      have : f = m := by simpa using hm
      subst this
      exact hf

theorem canonEntry_mem {l : List VideoFrame} {f : VideoFrame} {k : Nat}
    (hnd : NodupF l) (hf : f ∈ l) (hk : f.frame_number = k) :
    canonEntry l k = f := by
  induction l with
  | nil => simp at hf
  | cons g t ih =>
    unfold NodupF at hnd
    rw [List.pairwise_cons] at hnd
    unfold canonEntry
    by_cases hg : g.frame_number = k
    · rw [List.find?_cons_of_pos _ (by simpa using hg)]
      show g = f
      rcases List.mem_cons.mp hf with rfl | hf'
      · rfl
      · exact absurd (hg.trans hk.symm) (hnd.1 f hf')
    · rw [List.find?_cons_of_neg _ (by simpa using hg)]
      have hf' : f ∈ t := by
        rcases List.mem_cons.mp hf with rfl | hf'
        · exact absurd hk hg
        · exact hf'
      exact ih hnd.2 hf'

theorem canonEntry_not_mem {l : List VideoFrame} {k : Nat}
    (h : ∀ f ∈ l, f.frame_number ≠ k) :
    canonEntry l k = missingFrame k := by
  unfold canonEntry
  rw [List.find?_eq_none.mpr]
  intro f hf
  simpa using h f hf

theorem canonEntry_perm {l l' : List VideoFrame} (hp : l.Perm l')
    (hnd : NodupF l) (k : Nat) : canonEntry l k = canonEntry l' k := by
  by_cases hex : ∃ f ∈ l, f.frame_number = k
  · obtain ⟨f, hf, hk⟩ := hex
    rw [canonEntry_mem hnd hf hk,
      canonEntry_mem ((hp.pairwise_iff fun hab => hab.symm).mp hnd)
        (hp.mem_iff.mp hf) hk]
  · push_neg at hex
    rw [canonEntry_not_mem hex, canonEntry_not_mem
      fun f hf => hex f (hp.mem_iff.mpr hf)]

theorem canonOut_of_fns_range {rem : List VideoFrame} (hnd : NodupF rem) :
    ∀ (out : List VideoFrame) (e : Nat),
      out.map (·.frame_number) = List.range' e out.length →
      (∀ f ∈ out, f ∈ rem) →
      (List.range' e out.length).map (canonEntry rem) = out := by
  intro out
  induction out with
  | nil => intro e _ _; rfl
  | cons f t ih =>
    intro e hfns hmem
    simp only [List.length_cons, List.range'_succ, List.map_cons] at hfns ⊢
    obtain ⟨hfe, htl⟩ := List.cons.injEq .. ▸ hfns
    rw [canonEntry_mem hnd (hmem f (List.mem_cons_self f t)) hfe,
      ih (e + 1) htl fun g hg => hmem g (List.mem_cons_of_mem f hg)]

theorem foldrMax_range' :
    ∀ (n e : Nat), 1 ≤ n → (List.range' e n).foldr max 0 = e + n - 1 := by
  intro n
  induction n with
  | zero => omega
  | succ k ih =>
    intro e _
    rw [List.range'_succ]
    simp only [List.foldr_cons]
    cases k with
    | zero => simp
    | succ k' =>
      rw [ih (e + 1) (by omega)]
      omega

theorem maxFrameNumber_of_fns_range {l : List VideoFrame} {e : Nat}
    (h : l.map (·.frame_number) = List.range' e l.length)
    (hne : l ≠ []) : maxFrameNumber l = e + l.length - 1 := by
  unfold maxFrameNumber
  rw [h]
  exact foldrMax_range' l.length e
    (by cases l with | nil => simp at hne | cons a b => simp)

theorem canonOut_split {rem : List VideoFrame} {e mid stop : Nat}
    (h1 : e ≤ mid) (h2 : mid ≤ stop + 1) :
    canonOut rem e stop =
      (List.range' e (mid - e)).map (canonEntry rem) ++
        canonOut rem mid stop := by
  unfold canonOut
  rw [← List.map_append]
  congr 1
  have := List.range'_append e (mid - e) (stop + 1 - mid) 1
  simp only [one_mul, Nat.mul_one] at this
  rw [show e + (mid - e) = mid by omega] at this
  rw [show stop + 1 - e = stop + 1 - mid + (mid - e) by omega]
  exact this.symm

theorem maxFrameNumber_append (a b : List VideoFrame) :
    maxFrameNumber (a ++ b) = max (maxFrameNumber a) (maxFrameNumber b) := by
  apply le_antisymm
  · rw [maxFrameNumber_le_iff]
    intro f hf
    rcases List.mem_append.mp hf with hfa | hfb
    · exact le_trans (le_maxFrameNumber hfa) (le_max_left _ _)
    · exact le_trans (le_maxFrameNumber hfb) (le_max_right _ _)
  · apply max_le
    · exact maxFrameNumber_le_iff.mpr fun f hf =>
        le_maxFrameNumber (List.mem_append_left b hf)
    · exact maxFrameNumber_le_iff.mpr fun f hf =>
        le_maxFrameNumber (List.mem_append_right a hf)

/-- A generic three-list shuffle used below. -/
theorem perm_rotate {α : Type} (l m n : List α) :
    (l ++ (m ++ n)).Perm (m ++ (l ++ n)) := by
  have := perm_append_middle ([] : List α) l m n
  simpa using this

/-- Every record still sitting in a surviving reader after a drain is
strictly above some record with image data that the reader pushed. -/
theorem survivor_frame_bound {ws : List (List VideoFrame)} {f : VideoFrame}
    (hmem : f ∈ ((drainAll ws).2).flatten)
    (hsort : ∀ w ∈ ws, SortedF w) :
    ∃ c ∈ (drainAll ws).1, c.frame_number < f.frame_number := by
  obtain ⟨r', hr', hfr⟩ := List.mem_flatten.mp hmem
  obtain ⟨w, hw, hrm, hreq⟩ := drainAll_survivor_mem hr'
  obtain ⟨a, c, hpull, hcap, _⟩ := drainWorker_survivor hrm
  refine ⟨c, drainAll_pulled_mem hw ?_, ?_⟩
  · rw [hpull]
    exact List.mem_append_right a (List.mem_singleton_self c)
  · have hsw := hsort w hw
    have hws : (drainWorker w).1 ++ (drainWorker w).2.1 = w :=
      drainWorker_split w
    unfold SortedF at hsw
    rw [← hws, List.pairwise_append] at hsw
    apply hsw.2.2 c _ f (hreq ▸ hfr)
    rw [hpull]
    exact List.mem_append_right a (List.mem_singleton_self c)

/-- Classification of one merge round under the invariant: the round either
finishes having emitted exactly the canonical output, or continues with the
invariant and the canonical decomposition preserved and the measure
decreased.  (In particular it neither panics nor spins.) -/
theorem mergeRound_cases {ws : List (List VideoFrame)} {h : List VideoFrame}
    {e : Nat} (inv : MergeInv ws h e) :
    (∃ out, mergeRound ws h e = .roundDone out ∧
      out = canonOut (ws.flatten ++ h) e
        (maxFrameNumber (ws.flatten ++ h))) ∨
    (∃ out ws' h' e', mergeRound ws h e = .roundCont out ws' h' e' ∧
      MergeInv ws' h' e' ∧
      mergeMeasure ws' h' e' < mergeMeasure ws h e ∧
      canonOut (ws.flatten ++ h) e (maxFrameNumber (ws.flatten ++ h)) =
        out ++ canonOut (ws'.flatten ++ h') e'
          (maxFrameNumber (ws'.flatten ++ h'))) := by
  obtain ⟨hws, hsh, hnd, hge, he1⟩ := inv
  set P := (drainAll ws).1 with hPdef
  set S := (drainAll ws).2 with hSdef
  set h1 := heapPushAll h P with h1def
  set out := (emitRun h1 e).1 with outdef
  set h2 := (emitRun h1 e).2.1 with h2def
  set e2 := (emitRun h1 e).2.2 with e2def
  have permPS : (ws.flatten ++ h).Perm (P ++ (S.flatten ++ h)) := by
    have hp := (drainAll_perm ws).append_right h
    rw [List.append_assoc] at hp
    exact hp
  have permh1 : h1.Perm (P ++ h) := heapPushAll_perm P h
  have permRem1 : (ws.flatten ++ h).Perm (S.flatten ++ h1) := by
    refine permPS.trans ?_
    refine (perm_rotate P S.flatten h).trans ?_
    exact permh1.symm.append_left S.flatten
  have hsplit2 : out ++ h2 = h1 := emitRun_split h1 e
  have permOut : (ws.flatten ++ h).Perm (out ++ (S.flatten ++ h2)) := by
    refine permRem1.trans ?_
    rw [← hsplit2]
    exact perm_rotate S.flatten out h2
  have hndSplit : NodupF (out ++ (S.flatten ++ h2)) :=
    (permOut.pairwise_iff fun hab => hab.symm).mp hnd
  have hndParts := List.pairwise_append.mp hndSplit
  have hndOut : NodupF out := hndParts.1
  have hndRem2 : NodupF (S.flatten ++ h2) := hndParts.2.1
  have hcross : ∀ a ∈ out, ∀ b ∈ S.flatten ++ h2,
      a.frame_number ≠ b.frame_number := hndParts.2.2
  have hfns : out.map (·.frame_number) = List.range' e out.length :=
    emitRun_fns h1 e
  have he2 : e2 = e + out.length := emitRun_expected h1 e
  have hndPh : NodupF (P ++ h) := by
    have hnd2 : NodupF (P ++ (S.flatten ++ h)) :=
      (permPS.pairwise_iff fun hab => hab.symm).mp hnd
    have hsub : (P ++ h).Sublist (P ++ (S.flatten ++ h)) :=
      (List.sublist_append_right S.flatten h).append_left P
    exact hnd2.sublist hsub
  have hsh1 : SortedF h1 := heapPushAll_sorted hsh hndPh
  have hsh2 : SortedF h2 := by
    have hcopy : SortedF (out ++ h2) := by rw [hsplit2]; exact hsh1
    unfold SortedF at hcopy
    exact (List.pairwise_append.mp hcopy).2.1
  have hSsorted : ∀ w' ∈ S, SortedF w' := by
    intro r' hr'
    obtain ⟨w, hw, hrm, hreq⟩ := drainAll_survivor_mem hr'
    have hsw := hws w hw
    unfold SortedF at hsw ⊢
    rw [← drainWorker_split w, List.pairwise_append] at hsw
    exact hreq ▸ hsw.2.1
  have hmemRem2 : ∀ f ∈ S.flatten ++ h2, f ∈ ws.flatten ++ h :=
    fun f hf => permOut.mem_iff.mpr (List.mem_append_right out hf)
  have hmemOut : ∀ f ∈ out, f ∈ ws.flatten ++ h :=
    fun f hf => permOut.mem_iff.mpr (List.mem_append_left _ hf)
  have hgeRem2 : ∀ f ∈ S.flatten ++ h2, e2 ≤ f.frame_number := by
    intro f hf
    have hgef : e ≤ f.frame_number := hge f (hmemRem2 f hf)
    by_contra hlt
    push_neg at hlt
    rw [he2] at hlt
    have hkmem : f.frame_number ∈ List.range' e out.length := by
      rw [List.mem_range'_1]
      omega
    rw [← hfns] at hkmem
    obtain ⟨a, ha, haeq⟩ := List.mem_map.mp hkmem
    exact hcross a ha f hf haeq
  by_cases hdone : (h2.isEmpty && S.isEmpty) = true
  · left
    rw [Bool.and_eq_true, List.isEmpty_iff, List.isEmpty_iff] at hdone
    obtain ⟨hh2, hS⟩ := hdone
    refine ⟨out, ?_, ?_⟩
    · simp only [mergeRound]
      rw [← hPdef, ← hSdef, ← h1def, ← outdef, ← h2def]
      rw [if_pos (by rw [hh2, hS]; rfl)]
    · have hpermO : (ws.flatten ++ h).Perm out := by
        refine permOut.trans ?_
        rw [hS, hh2]
        simp
      by_cases houtnil : out = []
      · rw [houtnil] at hpermO ⊢
        have hremnil : ws.flatten ++ h = [] := hpermO.eq_nil
        rw [hremnil, show maxFrameNumber ([] : List VideoFrame) = 0 from rfl]
        unfold canonOut
        rw [show 0 + 1 - e = 0 by omega]
        rfl
      · have hmax : maxFrameNumber (ws.flatten ++ h) = e + out.length - 1 := by
          rw [maxFrameNumber_eq_of_perm hpermO]
          exact maxFrameNumber_of_fns_range hfns houtnil
        rw [hmax]
        unfold canonOut
        have hlenpos : 1 ≤ out.length := List.length_pos.mpr houtnil
        rw [show e + out.length - 1 + 1 - e = out.length by omega]
        exact (canonOut_of_fns_range hnd out e hfns hmemOut).symm
  · by_cases hout : out.isEmpty = true
    · -- no record emitted: synthesize Missing records up to the heap head
      have houtnil : out = [] := List.isEmpty_iff.mp hout
      have hh2h1 : h2 = h1 := emitRun_out_nil houtnil
      have he2e : e2 = e := by rw [he2, houtnil]; simp
      have hh1ne : h1 ≠ [] := by
        intro hc
        apply hdone
        rw [Bool.and_eq_true, List.isEmpty_iff, List.isEmpty_iff]
        refine ⟨by rw [hh2h1, hc], ?_⟩
        by_contra hSne
        have hp : P ≠ [] := by
          have hp0 := @drainAll_pushes_ne_nil ws hSne
          rw [← hPdef] at hp0
          exact hp0
        have hlen := heapPushAll_length P h
        rw [← h1def, hc] at hlen
        simp only [List.length_nil] at hlen
        have hppos := List.length_pos.mpr hp
        omega
      obtain ⟨m, hm⟩ := Option.ne_none_iff_exists'.mp
        (fun hc => hh1ne (List.head?_eq_none_iff.mp (hh2h1 ▸ hc)))
      have hmmem : m ∈ h2 :=
        List.mem_of_mem_head? (by simp [Option.mem_def, hm])
      have hmrem : m ∈ ws.flatten ++ h :=
        hmemRem2 m (List.mem_append_right S.flatten hmmem)
      have hmge : e ≤ m.frame_number := hge m hmrem
      have hmne : m.frame_number ≠ e := by
        have := @emitRun_stop h1 e m hm
        rw [← e2def, he2e] at this
        exact this
      have hmlt : e < m.frame_number := by omega
      right
      refine ⟨(List.range' e (m.frame_number - e)).map missingFrame,
        S, h2, m.frame_number, ?_, ?_, ?_, ?_⟩
      · simp only [mergeRound]
        rw [← hPdef, ← hSdef, ← h1def, ← outdef, ← h2def, ← e2def]
        rw [if_neg hdone, if_neg (by simp [hout]), hm]
        show (if e2 < m.frame_number then
            RoundOut.roundCont
              ((List.range' e2 (m.frame_number - e2)).map missingFrame)
              S h2 m.frame_number
          else RoundOut.roundSpin) = _
        rw [if_pos (by rw [he2e]; exact hmlt), he2e]
      · -- invariant for the new state
        have hminh2 : ∀ f ∈ h2, m.frame_number ≤ f.frame_number :=
          fun f hf => sorted_head_min hsh2 hm hf
        have hminS : ∀ f ∈ S.flatten, m.frame_number ≤ f.frame_number := by
          intro f hf
          obtain ⟨c, hc, hcf⟩ := survivor_frame_bound (hSdef ▸ hf) hws
          have hch1 : c ∈ h1 := permh1.mem_iff.mpr
            (List.mem_append_left h (hPdef ▸ hc))
          have := sorted_head_min hsh1 (hh2h1 ▸ hm) hch1
          omega
        refine ⟨hSsorted, hsh2, hndRem2, ?_, by omega⟩
        intro f hf
        rcases List.mem_append.mp hf with hfS | hfh
        · exact hminS f hfS
        · exact hminh2 f hfh
      · -- measure decreases
        have hpermR : (ws.flatten ++ h).Perm (S.flatten ++ h2) := by
          rw [hh2h1]; exact permRem1
        unfold mergeMeasure
        rw [hpermR.length_eq, maxFrameNumber_eq_of_perm hpermR]
        have hble : m.frame_number ≤ maxFrameNumber (S.flatten ++ h2) :=
          le_maxFrameNumber (List.mem_append_right S.flatten hmmem)
        omega
      · -- canonical decomposition
        have hpermR : (ws.flatten ++ h).Perm (S.flatten ++ h2) := by
          rw [hh2h1]; exact permRem1
        have hstopeq : maxFrameNumber (ws.flatten ++ h) =
            maxFrameNumber (S.flatten ++ h2) :=
          maxFrameNumber_eq_of_perm hpermR
        have hmmax : m.frame_number ≤ maxFrameNumber (ws.flatten ++ h) :=
          le_maxFrameNumber hmrem
        rw [canonOut_split (le_of_lt hmlt) (by omega)]
        congr 1
        · -- the gap really is empty: no remaining record below the heap head
          apply List.map_congr_left
          intro k hk
          rw [List.mem_range'_1] at hk
          apply canonEntry_not_mem
          intro f hf hfk
          have hf2 : f ∈ S.flatten ++ h2 := hpermR.mem_iff.mp hf
          rcases List.mem_append.mp hf2 with hfS | hfh
          · obtain ⟨c, hc, hcf⟩ := survivor_frame_bound (hSdef ▸ hfS) hws
            have hch1 : c ∈ h1 := permh1.mem_iff.mpr
              (List.mem_append_left h (hPdef ▸ hc))
            have := sorted_head_min hsh1 (hh2h1 ▸ hm) hch1
            omega
          · have := sorted_head_min hsh2 hm hfh
            omega
        · -- entries above the gap agree between the old and new remainder
          rw [hstopeq]
          unfold canonOut
          apply List.map_congr_left
          intro k _
          exact canonEntry_perm hpermR hnd k
    · -- at least one record emitted: continue
      right
      refine ⟨out, S, h2, e2, ?_, ?_, ?_, ?_⟩
      · simp only [mergeRound]
        rw [← hPdef, ← hSdef, ← h1def, ← outdef, ← h2def, ← e2def]
        have hof : out.isEmpty = false := by
          revert hout
          cases out.isEmpty <;> simp
        rw [if_neg hdone, if_pos (by rw [hof]; rfl)]
      · refine ⟨hSsorted, hsh2, hndRem2, hgeRem2, by rw [he2]; omega⟩
      · -- measure decreases
        have hlen2 : (ws.flatten ++ h).length =
            out.length + (S.flatten ++ h2).length := by
          rw [permOut.length_eq, List.length_append]
        have houtpos : 1 ≤ out.length := by
          rw [Bool.not_eq_true, List.isEmpty_eq_false_iff_exists_mem] at hout
          obtain ⟨x, hx⟩ := hout
          exact List.length_pos.mpr (by intro hc; rw [hc] at hx; simp at hx)
        have hmaxle : maxFrameNumber (S.flatten ++ h2) ≤
            maxFrameNumber (ws.flatten ++ h) :=
          maxFrameNumber_le_iff.mpr fun f hf =>
            le_maxFrameNumber (hmemRem2 f hf)
        unfold mergeMeasure
        rw [he2]
        omega
      · -- canonical decomposition
        have houtpos : 1 ≤ out.length := by
          rw [Bool.not_eq_true, List.isEmpty_eq_false_iff_exists_mem] at hout
          obtain ⟨x, hx⟩ := hout
          exact List.length_pos.mpr (by intro hc; rw [hc] at hx; simp at hx)
        have hlast : e + out.length - 1 ≤
            maxFrameNumber (ws.flatten ++ h) := by
          have hkmem : e + out.length - 1 ∈ List.range' e out.length := by
            rw [List.mem_range'_1]
            omega
          rw [← hfns] at hkmem
          obtain ⟨a, ha, haeq⟩ := List.mem_map.mp hkmem
          rw [← haeq]
          exact le_maxFrameNumber (hmemOut a ha)
        rw [canonOut_split (show e ≤ e2 by omega)
          (show e2 ≤ maxFrameNumber (ws.flatten ++ h) + 1 by omega)]
        congr 1
        · rw [show e2 - e = out.length by omega]
          exact canonOut_of_fns_range hnd out e hfns hmemOut
        · -- the tail: either nothing remains, or the maximum is untouched
          by_cases hrem2 : S.flatten ++ h2 = []
          · rw [hrem2]
            have hmaxlt : maxFrameNumber (ws.flatten ++ h) < e2 := by
              have hpermO2 : (ws.flatten ++ h).Perm out := by
                refine permOut.trans ?_
                rw [hrem2]
                simp
              rw [maxFrameNumber_eq_of_perm hpermO2,
                maxFrameNumber_of_fns_range hfns
                  (by intro hc; rw [hc] at houtpos; simp at houtpos), he2]
              omega
            unfold canonOut
            rw [show maxFrameNumber (ws.flatten ++ h) + 1 - e2 = 0 by omega,
              show maxFrameNumber ([] : List VideoFrame) + 1 - e2 = 0 by
                unfold maxFrameNumber; simp; omega]
            rfl
          · have hmaxeq : maxFrameNumber (S.flatten ++ h2) =
                maxFrameNumber (ws.flatten ++ h) := by
              obtain ⟨g, hg⟩ := List.exists_mem_of_ne_nil _ hrem2
              have hmaxout : maxFrameNumber out = e + out.length - 1 :=
                maxFrameNumber_of_fns_range hfns
                  (by intro hc; rw [hc] at houtpos; simp at houtpos)
              have hsplitmax : maxFrameNumber (ws.flatten ++ h) =
                  max (maxFrameNumber out)
                    (maxFrameNumber (S.flatten ++ h2)) := by
                rw [maxFrameNumber_eq_of_perm permOut,
                  maxFrameNumber_append]
              have hgbig : e2 ≤ maxFrameNumber (S.flatten ++ h2) :=
                le_trans (hgeRem2 g hg) (le_maxFrameNumber hg)
              rw [hsplitmax, hmaxout]
              rw [he2] at hgbig
              omega
            rw [hmaxeq]
            unfold canonOut
            apply List.map_congr_left
            intro k hk
            rw [List.mem_range'_1] at hk
            -- entries at or above e2 agree between old and new remainder
            by_cases hex : ∃ f ∈ ws.flatten ++ h, f.frame_number = k
            · obtain ⟨f, hf, hfk⟩ := hex
              have hf2 : f ∈ out ++ (S.flatten ++ h2) :=
                permOut.mem_iff.mp hf
              have hfrem2 : f ∈ S.flatten ++ h2 := by
                rcases List.mem_append.mp hf2 with hfo | hfr
                · exfalso
                  have hklt : f.frame_number < e2 := by
                    have : f.frame_number ∈ List.range' e out.length := by
                      rw [← hfns]
                      exact List.mem_map.mpr ⟨f, hfo, rfl⟩
                    rw [List.mem_range'_1] at this
                    rw [he2]
                    omega
                  omega
                · exact hfr
              rw [canonEntry_mem hnd hf hfk,
                canonEntry_mem hndRem2 hfrem2 hfk]
            · push_neg at hex
              rw [canonEntry_not_mem hex, canonEntry_not_mem
                fun f hf => hex f (hmemRem2 f hf)]

theorem mergeLoop_correct :
    ∀ (fuel : Nat) (ws : List (List VideoFrame)) (h : List VideoFrame)
      (e : Nat), MergeInv ws h e → mergeMeasure ws h e < fuel →
      mergeLoop fuel ws h e =
        (canonOut (ws.flatten ++ h) e (maxFrameNumber (ws.flatten ++ h)),
          .finished) := by
  intro fuel
  induction fuel with
  | zero => intro ws h e _ hlt; omega
  | succ fuel ih =>
    intro ws h e inv hlt
    rcases mergeRound_cases inv with
      ⟨out, hmr, hout⟩ | ⟨out, ws', h', e', hmr, inv', hdec, hsplit⟩
    · unfold mergeLoop
      rw [hmr, hout]
    · unfold mergeLoop
      rw [hmr]
      show (out ++ (mergeLoop fuel ws' h' e').1,
        (mergeLoop fuel ws' h' e').2) = _
      rw [ih ws' h' e' inv' (by omega)]
      rw [hsplit]

/-- `order_frames_from_worker_threads` delivers, for every frame number
from 1 up to the largest present in any reader, either the unique record
carrying it or a synthetic `Missing` record, in order, and terminates
normally. -/
theorem mergeFrames_correct {workers : List (List VideoFrame)}
    (hsort : ∀ w ∈ workers, SortedF w) (hnd : NodupF workers.flatten)
    (hpos : ∀ f ∈ workers.flatten, 1 ≤ f.frame_number) :
    mergeFrames workers =
      (canonOut workers.flatten 1 (maxFrameNumber workers.flatten),
        .finished) := by
  have hinv : MergeInv workers [] 1 := by
    refine ⟨hsort, List.Pairwise.nil, ?_, ?_, le_refl 1⟩
    · rw [List.append_nil]; exact hnd
    · rw [List.append_nil]; exact hpos
  have hfuel : mergeMeasure workers [] 1 < mergeFuel workers := by
    unfold mergeMeasure mergeFuel
    rw [List.append_nil, ← List.length_flatten]
    omega
  have := mergeLoop_correct (mergeFuel workers) workers [] 1 hinv hfuel
  unfold mergeFrames
  rw [this, List.append_nil]

/-! ## Memory budget and capture ordering
(`video_recorder.rs::create_buffer_if_within_memory_limit`,
`capture_stream.rs`, `video_frame.rs`)

The shared `Arc<AtomicUsize>` counter is a `Nat` kept below `2 ^ 64`;
`fetch_add`/`fetch_sub` wrap like `usize`.  Capture runs single-threaded on
the render thread, so the atomics are sequenced. -/

/-- Events against the capture budget: a render producing a frame of
`size` bytes, or the destruction of a previously kept frame of `size`
bytes releasing its payload. -/
inductive CapEvent
  | capture (size : Nat)
  | release (size : Nat)
  deriving DecidableEq, Repr

def CapEvent.size : CapEvent → Nat
  | .capture s => s
  | .release s => s

structure CapState where
  counter : Nat
  live : List Nat
  dropped : List Bool
  trace : List Nat
  deriving DecidableEq, Repr

/-- One step of the `VideoRecorder` budget logic: `fetch_add` the frame
size, compare the pre-add value against the budget, `fetch_sub` to revert
when exceeded (the frame is then marked `Dropped`); a release is the
`fetch_sub` in `Drop for VideoFrame`.  `trace` records every value the
shared counter takes, including the transient one. -/
def capStep (B : Nat) (s : CapState) : CapEvent → CapState
  | .capture f =>
    if B < s.counter then
      { counter := usizeSub ((s.counter + f) % 2 ^ 64) f
        live := s.live
        dropped := s.dropped ++ [true]
        trace := s.trace ++ [(s.counter + f) % 2 ^ 64,
          usizeSub ((s.counter + f) % 2 ^ 64) f] }
    else
      { counter := (s.counter + f) % 2 ^ 64
        live := s.live ++ [f]
        dropped := s.dropped ++ [false]
        trace := s.trace ++ [(s.counter + f) % 2 ^ 64] }
  | .release f =>
    { counter := usizeSub s.counter f
      live := s.live.erase f
      dropped := s.dropped
      trace := s.trace ++ [usizeSub s.counter f] }

def capInit : CapState := ⟨0, [], [], [0]⟩

def capRun (B : Nat) (evs : List CapEvent) : CapState :=
  evs.foldl (capStep B) capInit

/-- A release may only destroy a frame that is currently live. -/
def capValidFrom (B : Nat) : CapState → List CapEvent → Bool
  | _, [] => true
  | s, .capture f :: r => capValidFrom B (capStep B s (.capture f)) r
  | s, .release f :: r =>
    s.live.contains f && capValidFrom B (capStep B s (.release f)) r

def capValid (B : Nat) (evs : List CapEvent) : Bool :=
  capValidFrom B capInit evs

/-- `impl Drop for VideoFrame` (`video_frame.rs`): the counter is
decremented only when the record still owns a payload. -/
def videoFrameDropCounter (counter : Nat) (hasPayload : Bool)
    (frame_size : Nat) : Nat :=
  if hasPayload then usizeSub counter frame_size else counter

/-- `impl Drop for StreamFrame` (`capture_stream.rs`): the counter is
decremented unconditionally. -/
def streamFrameDropCounter (counter : Nat) (frame_size : Nat) : Nat :=
  usizeSub counter frame_size

/-- `CaptureStream::create_buffer_if_within_memory_limit`
(`capture_stream.rs`): reserve, compare the pre-add value, revert with
`store(prev_size)` on overflow; the frame records whether it kept a
buffer. -/
def streamCapture (B : Nat) (s : Nat × List (Nat × Bool)) (size : Nat) :
    Nat × List (Nat × Bool) :=
  if B < s.1 then (s.1, s.2 ++ [(size, false)])
  else ((s.1 + size) % 2 ^ 64, s.2 ++ [(size, true)])

def streamCaptureAll (B : Nat) (sizes : List Nat) :
    Nat × List (Nat × Bool) :=
  sizes.foldl (streamCapture B) (0, [])

/-- Counter after every `StreamFrame` of the session is delivered and
destroyed (`capture_stream.rs` path). -/
def streamFinalCounter (B : Nat) (sizes : List Nat) : Nat :=
  let s := streamCaptureAll B sizes
  s.2.foldl (fun c fr => streamFrameDropCounter c fr.1) s.1

/-- Counter after every `VideoFrame` of the session is delivered and
destroyed (`video_recorder.rs`/`video_frame.rs` path; same budget
decisions, guarded decrement). -/
def videoFinalCounter (B : Nat) (sizes : List Nat) : Nat :=
  let s := streamCaptureAll B sizes
  s.2.foldl (fun c fr => videoFrameDropCounter c fr.2 fr.1) s.1

/-! ### In-order delivery (`VideoRecorder`) -/

/-- Events of the capture delivery machine: a finished render, the
per-frame `initiate_buffer_mapping` pass, an async map callback for queue
position `i` firing (with success flag), and `process_mapped_buffers`. -/
inductive RecEvent
  | render (size : Nat)
  | initiate
  | mapResult (i : Nat) (ok : Bool)
  | process
  deriving DecidableEq, Repr

structure RecState where
  frame_number : Nat
  counter : Nat
  video_frames : List (Nat × Bool)
  frame_states : List Nat
  delivered : List Nat
  panicked : Bool
  deriving DecidableEq, Repr

def recInit : RecState := ⟨0, 0, [], [], [], false⟩

/-- `create_buffer_if_within_memory_limit`: budget check, then
`frame_number` is incremented regardless of whether the frame is dropped,
and the frame is queued (with a buffer only when kept). -/
def recRender (B : Nat) (s : RecState) (size : Nat) : RecState :=
  if B < s.counter then
    { s with
      frame_number := s.frame_number + 1
      video_frames := s.video_frames ++ [(s.frame_number + 1, false)] }
  else
    { s with
      frame_number := s.frame_number + 1
      counter := (s.counter + size) % 2 ^ 64
      video_frames := s.video_frames ++ [(s.frame_number + 1, true)] }

/-- `initiate_buffer_mapping`: frames without a state yet get one — `1`
(mapping) when a buffer exists, `0` (dropped placeholder) otherwise. -/
def recInitiate (s : RecState) : RecState :=
  { s with frame_states := s.frame_states ++
      ((s.video_frames.drop s.frame_states.length).map
        fun vf => if vf.2 then 1 else 0) }

/-- A `map_async` callback for queue position `i` fires: `2` on success,
`3` on failure; only a frame in the `mapping` state changes. -/
def recMapResult (s : RecState) (i : Nat) (ok : Bool) : RecState :=
  if i < s.frame_states.length ∧ s.frame_states.getD i 0 = 1 then
    { s with frame_states := s.frame_states.set i (if ok then 2 else 3) }
  else s

/-- The drain loop of `process_mapped_buffers`: inspect only the oldest
queued record; deliver and continue on `0`/`2`, stop on `1`, panic on a
failed map (and on indexing `frame_states[0]` with no state present). -/
def recProcess : Nat → RecState → RecState
  | 0, s => s
  | fuel + 1, s =>
    match s.video_frames, s.frame_states with
    | [], _ => s
    | vf :: vrest, st :: strest =>
      if st = 0 ∨ st = 2 then
        recProcess fuel
          { s with
            video_frames := vrest
            frame_states := strest
            delivered := s.delivered ++ [vf.1] }
      else if st = 1 then s
      else { s with panicked := true }
    | _ :: _, [] => { s with panicked := true }

def recStep (B : Nat) (s : RecState) : RecEvent → RecState :=
  fun ev =>
    if s.panicked then s
    else
      match ev with
      | .render size => recRender B s size
      | .initiate => recInitiate s
      | .mapResult i ok => recMapResult s i ok
      | .process => recProcess s.video_frames.length s

def recRun (B : Nat) (evs : List RecEvent) : RecState :=
  evs.foldl (recStep B) recInit

/-! ## Encode sink (`ffmpeg_pipe.rs::write`) -/

structure PipeState where
  child : Bool
  prev_bytes : Option (List Nat)
  writes : List (List Nat)
  deriving DecidableEq, Repr

/-- `FfmpegPipe::write`: an empty record with nothing cached is skipped;
otherwise the process is spawned on first use, and either the cached
previous bytes are re-written (empty input) or the input is written and
cached. -/
def ffmpegWrite (s : PipeState) (png_bytes : List Nat) : PipeState :=
  if png_bytes.isEmpty && s.prev_bytes.isNone then s
  else
    let s1 := if s.child then s else { s with child := true }
    if png_bytes.isEmpty then
      { s1 with writes := s1.writes ++ [s1.prev_bytes.getD []] }
    else
      { s1 with
        writes := s1.writes ++ [png_bytes]
        prev_bytes := some png_bytes }

def pipeInit : PipeState := ⟨false, none, []⟩

def ffmpegRun (inputs : List (List Nat)) : PipeState :=
  inputs.foldl ffmpegWrite pipeInit

/-! ## The full compress → decompress → merge pipeline -/

/-- The shard files the compression workers write, given the records each
worker pulls from the channel (in pull order). -/
def compressShards (workers : List (List VideoFrame)) :
    Option (List (List Nat)) :=
  workers.mapM encShard

/-- Records delivered to the `in_order_function`, with how the coordinator
ends, after compressing each worker's records, decompressing every shard
and running the k-way merge. -/
def pipelineOut (workers : List (List VideoFrame)) :
    Option (List VideoFrame × MergeEnd) :=
  (compressShards workers).map fun shards =>
    mergeFrames (shards.map decodeShard)

theorem decFrame_frame_number (f : VideoFrame) :
    (decFrame f).frame_number = f.frame_number := rfl

theorem map_decFrame_fns (l : List VideoFrame) :
    (l.map decFrame).map (·.frame_number) = l.map (·.frame_number) := by
  rw [List.map_map]
  rfl

theorem sortedF_map_decFrame {l : List VideoFrame} (h : SortedF l) :
    SortedF (l.map decFrame) := by
  unfold SortedF at h ⊢
  exact List.pairwise_map.mpr h

theorem nodupF_map_decFrame {l : List VideoFrame} (h : NodupF l) :
    NodupF (l.map decFrame) := by
  unfold NodupF at h ⊢
  exact List.pairwise_map.mpr h

theorem maxFrameNumber_map_decFrame (l : List VideoFrame) :
    maxFrameNumber (l.map decFrame) = maxFrameNumber l := by
  unfold maxFrameNumber
  rw [map_decFrame_fns]

/-- Encoding then decoding every worker's shard reproduces each worker's
records through `decFrame`. -/
theorem compressShards_decode {workers : List (List VideoFrame)}
    (h : ∀ w ∈ workers, ∀ f ∈ w, PacketOk f) :
    ∃ shards, compressShards workers = some shards ∧
      shards.map decodeShard = workers.map (List.map decFrame) := by
  induction workers with
  | nil => exact ⟨[], rfl, rfl⟩
  | cons w t ih =>
    obtain ⟨shards, hs, hdec⟩ :=
      ih fun w' hw' => h w' (List.mem_cons_of_mem w hw')
    obtain ⟨s, hse, hsd⟩ := @decodeShard_encShard w
      (h w (List.mem_cons_self w t)) []
      (parsePacket_short (by simp))
    rw [List.append_nil] at hsd
    refine ⟨s :: shards, ?_, ?_⟩
    · unfold compressShards at hs ⊢
      rw [List.mapM_cons, hse, hs]
      rfl
    · rw [List.map_cons, hsd, hdec]
      rfl

theorem canonEntry_fn (rem : List VideoFrame) (k : Nat) :
    (canonEntry rem k).frame_number = k := by
  unfold canonEntry
  cases hfind : rem.find? (fun f => f.frame_number == k) with
  | none => rfl
  | some f =>
    have := List.find?_some hfind
    simpa using this

theorem canonOut_fns (rem : List VideoFrame) (e stop : Nat) :
    (canonOut rem e stop).map (·.frame_number) =
      List.range' e (stop + 1 - e) := by
  unfold canonOut
  rw [List.map_map]
  have : ∀ k ∈ List.range' e (stop + 1 - e),
      ((·.frame_number) ∘ canonEntry rem) k = id k :=
    fun k _ => canonEntry_fn rem k
  rw [List.map_congr_left this, List.map_id]

theorem sublist_flatten {α : Type} {L₁ L₂ : List (List α)}
    (h : L₁.Sublist L₂) : L₁.flatten.Sublist L₂.flatten := by
  induction h with
  | slnil => exact List.Sublist.refl _
  | cons a _ ih =>
    rw [List.flatten_cons]
    exact ih.trans (List.sublist_append_right a _)
  | cons₂ a _ ih =>
    rw [List.flatten_cons, List.flatten_cons]
    exact ih.append_left a

/-- Compressing, decompressing and merging a set of worker record lists
delivers the canonical output over the decoded records. -/
theorem pipeline_correct {workers : List (List VideoFrame)}
    (hsort : ∀ w ∈ workers, SortedF w)
    (hnd : NodupF workers.flatten)
    (hpos : ∀ f ∈ workers.flatten, 1 ≤ f.frame_number)
    (hwf : ∀ w ∈ workers, ∀ f ∈ w, PacketOk f) :
    pipelineOut workers = some
      (canonOut (workers.flatten.map decFrame) 1
        (maxFrameNumber workers.flatten), .finished) := by
  obtain ⟨shards, hs, hdec⟩ := compressShards_decode hwf
  unfold pipelineOut
  rw [hs, Option.map_some', hdec]
  have hflat : (workers.map (List.map decFrame)).flatten =
      workers.flatten.map decFrame := (List.map_flatten _ _).symm
  have hmf := @mergeFrames_correct
    (workers.map (List.map decFrame))
    (fun w' hw' => by
      obtain ⟨w, hw, rfl⟩ := List.mem_map.mp hw'
      exact sortedF_map_decFrame (hsort w hw))
    (by rw [hflat]; exact nodupF_map_decFrame hnd)
    (by
      rw [hflat]
      intro f hf
      obtain ⟨g, hg, rfl⟩ := List.mem_map.mp hf
      exact hpos g hg)
  rw [hmf, hflat, maxFrameNumber_map_decFrame]

theorem mem_le_sum {l : List Nat} {x : Nat} (h : x ∈ l) : x ≤ l.sum := by
  induction l with
  | nil => simp at h
  | cons a t ih =>
    rcases List.mem_cons.mp h with rfl | h'
    · simp
    · have := ih h'
      simp only [List.sum_cons]
      omega

theorem sum_erase_of_mem {l : List Nat} {x : Nat} (h : x ∈ l) :
    (l.erase x).sum = l.sum - x := by
  induction l with
  | nil => simp at h
  | cons a t ih =>
    by_cases hax : a = x
    · subst hax
      rw [List.erase_cons_head]
      simp only [List.sum_cons]
      omega
    · rw [show (a :: t).erase x = a :: t.erase x from
        List.erase_cons_tail (by simp [hax])]
      have hxt : x ∈ t := by
        rcases List.mem_cons.mp h with rfl | h'
        · exact absurd rfl hax
        · exact h'
      have hle := mem_le_sum hxt
      simp only [List.sum_cons, ih hxt]
      omega

/-! ## Claims -/

/-- C1: Round-trip through the on-disk shard format: for every sequence of
N records with frame_numbers 1..N distributed in any way across W
compression workers (each worker receives a subsequence, in order, of the
capture stream), decompressing the W resulting shards and running the
k-way merge delivers exactly the N records to the in-order callback in
frame_number order 1..N; each record arrives through `decFrame`, which
keeps every metadata field, turns a `Captured` record's buffer payload
into the identical owned bytes, and leaves a `Dropped` record `Dropped`
with no payload. -/
theorem claim_c1_roundtrip {N : Nat} {records : List VideoFrame}
    {workers : List (List VideoFrame)}
    (hfn : records.map (·.frame_number) = List.range' 1 N)
    (hwf : ∀ f ∈ records, PacketOk f)
    (hsort : ∀ w ∈ workers, SortedF w)
    (hperm : workers.flatten.Perm records) :
    pipelineOut workers = some (records.map decFrame, MergeEnd.finished) ∧
    (records.map decFrame).length = N ∧
    (records.map decFrame).map (·.frame_number) = List.range' 1 N ∧
    (∀ f : VideoFrame, ∀ b, f.image_data = some (ImageData.buffer b) →
      decFrame f = { f with image_data := some (ImageData.bytes b) }) ∧
    (∀ f : VideoFrame, f.image_data = none → decFrame f = f) := by
  have hlen : records.length = N := by
    have := congrArg List.length hfn
    simpa using this
  have hndrec : NodupF records := by
    unfold NodupF
    have h1 : (records.map (·.frame_number)).Nodup := by
      rw [hfn]
      exact List.nodup_range' 1 N
    exact List.pairwise_map.mp h1
  have hndflat : NodupF workers.flatten :=
    (hperm.pairwise_iff fun hab => hab.symm).mpr hndrec
  have hposrec : ∀ f ∈ records, 1 ≤ f.frame_number := by
    intro f hf
    have hmem : f.frame_number ∈ records.map (·.frame_number) :=
      List.mem_map.mpr ⟨f, hf, rfl⟩
    rw [hfn, List.mem_range'_1] at hmem
    omega
  have hposflat : ∀ f ∈ workers.flatten, 1 ≤ f.frame_number :=
    fun f hf => hposrec f (hperm.mem_iff.mp hf)
  have hwfflat : ∀ w ∈ workers, ∀ f ∈ w, PacketOk f :=
    fun w hw f hf =>
      hwf f (hperm.mem_iff.mp (List.mem_flatten.mpr ⟨w, hw, hf⟩))
  have hp := pipeline_correct hsort hndflat hposflat hwfflat
  have permdec : (workers.flatten.map decFrame).Perm (records.map decFrame) :=
    hperm.map decFrame
  have hnddec : NodupF (workers.flatten.map decFrame) :=
    nodupF_map_decFrame hndflat
  have hmain : canonOut (workers.flatten.map decFrame) 1
      (maxFrameNumber workers.flatten) = records.map decFrame := by
    cases Nat.eq_zero_or_pos N with
    | inl hN0 =>
      have hrecnil : records = [] :=
        List.length_eq_zero.mp (by rw [hlen, hN0])
      have hflatnil : workers.flatten = [] :=
        (hrecnil ▸ hperm).eq_nil
      rw [hrecnil, hflatnil]
      simp [canonOut, maxFrameNumber]
    | inr hNpos =>
      have hrecne : records ≠ [] := by
        intro hc
        rw [hc] at hlen
        simp at hlen
        omega
      have hmaxrec : maxFrameNumber records = N := by
        have := @maxFrameNumber_of_fns_range records 1
          (by rw [hfn, hlen]) hrecne
        omega
      have hmaxflat : maxFrameNumber workers.flatten = N := by
        rw [maxFrameNumber_eq_of_perm hperm, hmaxrec]
      rw [hmaxflat]
      unfold canonOut
      rw [show N + 1 - 1 = N by omega]
      have hfnd : (records.map decFrame).map (·.frame_number) =
          List.range' 1 (records.map decFrame).length := by
        rw [map_decFrame_fns, hfn, List.length_map, hlen]
      have hmemd : ∀ f ∈ records.map decFrame,
          f ∈ workers.flatten.map decFrame :=
        fun f hf => permdec.mem_iff.mpr hf
      have := canonOut_of_fns_range hnddec (records.map decFrame) 1
        hfnd hmemd
      rw [List.length_map, hlen] at this
      exact this
  refine ⟨?_, by rw [List.length_map, hlen], by rw [map_decFrame_fns, hfn],
    ?_, ?_⟩
  · rw [hp, hmain]
  · intro f b hb
    unfold decFrame
    rw [hb]
    rfl
  · intro f hf
    cases f with
    | mk st idat w h fmt up pp fn fs bs =>
      have hid : idat = none := hf
      subst hid
      rfl

/-- A concrete capture-produced record used to instantiate the claims. -/
def sampleRec (k : Nat) (cap : Bool) : VideoFrame :=
  ⟨if cap then .captured else .dropped,
   if cap then some (.buffer [k, k + 1]) else none,
   1, 1, .rgbaU8, 4, 4, k, 2, 0⟩

def c1sampleRecords : List VideoFrame :=
  [sampleRec 1 true, sampleRec 2 false, sampleRec 3 true]

def c1sampleWorkers : List (List VideoFrame) :=
  [[sampleRec 1 true, sampleRec 3 true], [sampleRec 2 false]]

theorem claim_c1_roundtrip_witness :
    (c1sampleRecords.map (·.frame_number) = List.range' 1 3) ∧
    (∀ f ∈ c1sampleRecords, PacketOk f) ∧
    (∀ w ∈ c1sampleWorkers, SortedF w) ∧
    c1sampleWorkers.flatten.Perm c1sampleRecords ∧
    pipelineOut c1sampleWorkers =
      some (c1sampleRecords.map decFrame, MergeEnd.finished) :=
  ⟨by decide, by decide, by decide, by decide,
    (@claim_c1_roundtrip 3 c1sampleRecords c1sampleWorkers (by decide)
      (by decide) (by decide) (by decide)).1⟩

/-- A concrete `Dropped` record whose fields are all small. -/
def c2frame : VideoFrame := ⟨.dropped, none, 1, 1, .rgbaU8, 4, 4, 1, 4, 0⟩

/-- C2, counterexample: for `c2frame` the serialized metadata is 10 bytes
and no raw bytes follow, yet the `packet_len` field written at the start
of the packet is 26, not `8 + 10 + 0 = 18` as the claim states (the field
also counts the two 8-byte length prefixes). -/
theorem claim_c2_counterexample :
    (encPacket c2frame).map (fun p => beVal (p.take 8)) = some 26 ∧
    (encVF c2frame).length = 10 ∧
    8 + (encVF c2frame).length + 0 = 18 ∧ (26 : Nat) ≠ 18 := by decide

/-- C2, amended: the `packet_len` field written at the start of a packet
equals `8 + 8 + metadata_len + len(raw image bytes)` — it counts both
u64 length prefixes — where the raw bytes are the frame's mapped buffer
when image data is present and empty otherwise. -/
theorem claim_c2_packet_len {f : VideoFrame} (h : PacketOk f) :
    ∃ p img, encPacket f = some p ∧ rawImage f = some img ∧
      beVal (p.take 8) = 8 + 8 + (encVF f).length + img.length ∧
      (f.image_data = none → img = []) := by
  obtain ⟨hsz, hraw, hlen⟩ := h
  obtain ⟨img, hri⟩ := Option.isSome_iff_exists.mp hraw
  have hplen : packetBytesLen f = 8 + 8 + (encVF f).length + img.length := by
    unfold packetBytesLen
    rw [hri]
  refine ⟨beBytes 8 (8 + 8 + (encVF f).length + img.length) ++
    (beBytes 8 (encVF f).length ++ (encVF f ++ img)), img, ?_, hri, ?_, ?_⟩
  · rw [encPacket, hri]
    simp only [Option.map_some', List.append_assoc]
  · have htake : (beBytes 8 (8 + 8 + (encVF f).length + img.length) ++
        (beBytes 8 (encVF f).length ++ (encVF f ++ img))).take 8 =
        beBytes 8 (8 + 8 + (encVF f).length + img.length) := by
      have h8 := beBytes_length 8 (8 + 8 + (encVF f).length + img.length)
      exact h8 ▸ List.take_left _ _
    rw [htake]
    rw [hplen] at hlen
    exact beVal_beBytes_of_lt (by norm_num; omega)
  · intro hnone
    rw [rawImage, hnone] at hri
    simpa using hri.symm

theorem claim_c2_packet_len_witness :
    PacketOk c2frame ∧
    ∃ p img, encPacket c2frame = some p ∧ rawImage c2frame = some img ∧
      beVal (p.take 8) = 8 + 8 + (encVF c2frame).length + img.length ∧
      (c2frame.image_data = none → img = []) :=
  ⟨by decide, claim_c2_packet_len (by decide)⟩

/-- C9: a truncated 8-byte `packet_len` prefix at end-of-file ends the
reader cleanly, and any unparseable trailing bytes (failed read or decode
of a length prefix or packet body) make the reader stop after exactly the
records of the valid packets — it neither resynchronizes nor panics. -/
theorem claim_c9_reader_stop :
    (∀ junk : List Nat, junk.length < 8 → parsePacket junk = none) ∧
    (∀ (ws : List VideoFrame) (junk : List Nat),
      (∀ f ∈ ws, PacketOk f) → parsePacket junk = none →
      ∃ s, encShard ws = some s ∧
        decodeShard (s ++ junk) = ws.map decFrame) :=
  ⟨fun _ h => parsePacket_short h,
   fun _ _ hwf hj => decodeShard_encShard hwf hj⟩

def c9junk : List Nat := [0, 0, 0, 0, 0, 0, 0, 42]

theorem claim_c9_reader_stop_witness :
    parsePacket [1, 2, 3] = none ∧
    parsePacket c9junk = none ∧
    (∃ s, encShard [sampleRec 1 true] = some s ∧
      decodeShard (s ++ c9junk) = [sampleRec 1 true].map decFrame) :=
  ⟨claim_c9_reader_stop.1 [1, 2, 3] (by decide),
   by decide,
   claim_c9_reader_stop.2 [sampleRec 1 true] c9junk (by decide) (by decide)⟩

/-- C10: whenever a merge round emits no record while at least one reader
remains open, every surviving reader pushed at least one record, so the
heap is non-empty and `min_heap.peek().unwrap()` never panics: no run of
the coordinator ends in the panicked state. -/
theorem claim_c10_no_panic :
    (∀ ws : List (List VideoFrame),
      (drainAll ws).2 ≠ [] → (drainAll ws).1 ≠ []) ∧
    (∀ (fuel : Nat) (ws : List (List VideoFrame)) (h : List VideoFrame)
      (e : Nat), (mergeLoop fuel ws h e).2 ≠ MergeEnd.panicked) :=
  ⟨fun _ h => drainAll_pushes_ne_nil h, mergeLoop_ne_panicked⟩

theorem claim_c10_no_panic_witness :
    (drainAll [[sampleRec 1 true]]).1 ≠ [] ∧
    (mergeLoop 3 [[sampleRec 1 true]] [] 1).2 ≠ MergeEnd.panicked :=
  ⟨claim_c10_no_panic.1 [[sampleRec 1 true]] (by decide),
   claim_c10_no_panic.2 3 [[sampleRec 1 true]] [] 1⟩

theorem drainWorker_retired_iff (w : List VideoFrame) :
    (drainWorker w).2.2 = true ↔ ∀ f ∈ w, f.image_data.isSome = false := by
  induction w with
  | nil => simp [drainWorker]
  | cons f rest ih =>
    unfold drainWorker
    by_cases hf : f.image_data.isSome
    · rw [if_pos hf]
      constructor
      · intro h
        exact (Bool.false_ne_true h).elim
      · intro h
        have h0 := h f (List.mem_cons_self f rest)
        rw [hf] at h0
        exact absurd h0 (by decide)
    · simp only [hf, Bool.false_eq_true, if_false]
      rw [ih]
      constructor
      · intro h g hg
        rcases List.mem_cons.mp hg with rfl | hg'
        · revert hf
          cases g.image_data.isSome <;> simp
        · exact h g hg'
      · intro h g hg
        exact h g (List.mem_cons_of_mem f hg)

theorem drainWorker_pulled_sub (w : List VideoFrame) :
    ∀ f ∈ (drainWorker w).1, f ∈ w := by
  intro f hf
  rw [← drainWorker_split w]
  exact List.mem_append_left _ hf

/-- C6: each still-open reader is drained in channel order: the pulled
records followed by what is left in the channel reconstruct the reader;
the reader is retired exactly when its channel closes without ever
yielding a record with a real payload (status `Captured`); a surviving
reader pulled a run of payload-less records followed by its first
`Captured` record and nothing more; the heap after the round is the heap
before plus every pulled record of every reader, each pulled record
landing on it; and the surviving worker list holds exactly the channel
remainders of non-retired readers, so a retired reader is never pulled
again. -/
theorem claim_c6_drain (w : List VideoFrame) (ws : List (List VideoFrame))
    (hw : w ∈ ws)
    (hwf : ∀ f ∈ w,
      f.image_data.isSome = true ↔ f.status = FrameStatus.captured) :
    (drainWorker w).1 ++ (drainWorker w).2.1 = w ∧
    ((drainWorker w).2.2 = true ↔
      ∀ f ∈ w, f.status ≠ FrameStatus.captured) ∧
    ((drainWorker w).2.2 = false →
      ∃ a c, (drainWorker w).1 = a ++ [c] ∧
        c.status = FrameStatus.captured ∧
        ∀ f ∈ a, f.status ≠ FrameStatus.captured) ∧
    (∀ h : List VideoFrame,
      (heapPushAll h (drainAll ws).1).Perm ((drainAll ws).1 ++ h)) ∧
    (∀ f ∈ (drainWorker w).1, ∀ h : List VideoFrame,
      f ∈ heapPushAll h (drainAll ws).1) ∧
    (∀ r ∈ (drainAll ws).2,
      ∃ w2 ∈ ws, (drainWorker w2).2.2 = false ∧
        r = (drainWorker w2).2.1) := by
  refine ⟨drainWorker_split w, ?_, ?_, ?_, ?_, ?_⟩
  · rw [drainWorker_retired_iff w]
    constructor
    · intro h f hf hc
      have h0 := h f hf
      have h1 := (hwf f hf).mpr hc
      rw [h0] at h1
      exact Bool.false_ne_true h1
    · intro h f hf
      cases hs : f.image_data.isSome with
      | false => rfl
      | true => exact absurd ((hwf f hf).mp hs) (h f hf)
  · intro hsur
    obtain ⟨a, c, h1, h2, h3⟩ := drainWorker_survivor hsur
    have hsub := drainWorker_pulled_sub w
    rw [h1] at hsub
    refine ⟨a, c, h1,
      (hwf c (hsub c (List.mem_append_right a (List.mem_singleton_self c)))).mp
        h2, ?_⟩
    intro f hf hc
    have h0 := h3 f hf
    have h1 := (hwf f (hsub f (List.mem_append_left _ hf))).mpr hc
    rw [h0] at h1
    exact Bool.false_ne_true h1
  · intro h
    exact heapPushAll_perm _ h
  · intro f hf h
    exact (heapPushAll_perm _ h).mem_iff.mpr
      (List.mem_append_left _ (drainAll_pulled_mem hw hf))
  · intro r hr
    exact drainAll_survivor_mem hr

def c6w : List VideoFrame := [sampleRec 2 false, sampleRec 3 true]

def c6ws : List (List VideoFrame) := [c6w, [sampleRec 4 false]]

theorem claim_c6_drain_witness :
    c6w ∈ c6ws ∧
    ((drainWorker c6w).1 ++ (drainWorker c6w).2.1 = c6w ∧
    ((drainWorker c6w).2.2 = true ↔
      ∀ f ∈ c6w, f.status ≠ FrameStatus.captured) ∧
    ((drainWorker c6w).2.2 = false →
      ∃ a c, (drainWorker c6w).1 = a ++ [c] ∧
        c.status = FrameStatus.captured ∧
        ∀ f ∈ a, f.status ≠ FrameStatus.captured) ∧
    (∀ h : List VideoFrame,
      (heapPushAll h (drainAll c6ws).1).Perm ((drainAll c6ws).1 ++ h)) ∧
    (∀ f ∈ (drainWorker c6w).1, ∀ h : List VideoFrame,
      f ∈ heapPushAll h (drainAll c6ws).1) ∧
    (∀ r ∈ (drainAll c6ws).2,
      ∃ w2 ∈ c6ws, (drainWorker w2).2.2 = false ∧
        r = (drainWorker w2).2.1)) :=
  ⟨by decide, claim_c6_drain c6w c6ws (by decide) (by decide)⟩

def c7workers : List (List VideoFrame) :=
  [[sampleRec 1 true, sampleRec 2 true], [sampleRec 3 true, sampleRec 4 true]]

/-- C7, counterexample: with frames 1,2 on shard 0 and frames 3,4 on
shard 1, deleting shard 1 does not replace frames 3 and 4 with `Missing`:
the merge delivers only frames 1 and 2 and terminates, because once every
reader is closed and the heap is empty the coordinator returns without
synthesizing anything for the deleted tail. -/
theorem claim_c7_counterexample :
    c7workers.eraseIdx 1 = [[sampleRec 1 true, sampleRec 2 true]] ∧
    c7workers.flatten.map (fun f => f.frame_number) = [1, 2, 3, 4] ∧
    pipelineOut (c7workers.eraseIdx 1) =
      some ([decFrame (sampleRec 1 true), decFrame (sampleRec 2 true)],
        MergeEnd.finished) ∧
    missingFrame 3 ∉
      [decFrame (sampleRec 1 true), decFrame (sampleRec 2 true)] ∧
    missingFrame 4 ∉
      [decFrame (sampleRec 1 true), decFrame (sampleRec 2 true)] := by
  refine ⟨rfl, by decide, ?_, by decide, by decide⟩
  have hp := @pipeline_correct (c7workers.eraseIdx 1)
    (by decide) (by decide) (by decide) (by decide)
  rw [hp]
  decide

/-- C7, amended: a merge round that emits nothing while readers remain
synthesizes `Missing` records from the expected frame up to but excluding
the heap minimum; consequently deleting shard `j` of well-formed workers
yields exactly frames `1..M`, where `M` is the largest frame number on
the SURVIVING shards: every surviving record arrives (decoded), every
frame number up to `M` produced only by the deleted shard arrives as
`Missing`, and the deleted shard's frames above `M` are silently absent
rather than replaced by `Missing`. -/
theorem claim_c7_missing {workers : List (List VideoFrame)} (j : Nat)
    (hsort : ∀ w ∈ workers, SortedF w)
    (hnd : NodupF workers.flatten)
    (hpos : ∀ f ∈ workers.flatten, 1 ≤ f.frame_number)
    (hwf : ∀ w ∈ workers, ∀ f ∈ w, PacketOk f) :
    ∃ out, pipelineOut (workers.eraseIdx j) =
        some (out, MergeEnd.finished) ∧
      out.map (fun f => f.frame_number) =
        List.range' 1 (maxFrameNumber (workers.eraseIdx j).flatten) ∧
      (∀ f ∈ (workers.eraseIdx j).flatten, decFrame f ∈ out) ∧
      (∀ k, 1 ≤ k → k ≤ maxFrameNumber (workers.eraseIdx j).flatten →
        (∀ f ∈ (workers.eraseIdx j).flatten, f.frame_number ≠ k) →
        missingFrame k ∈ out) ∧
      (∀ f ∈ out,
        f.frame_number ≤ maxFrameNumber (workers.eraseIdx j).flatten) := by
  set rem := workers.eraseIdx j with hremdef
  have hsub : rem.Sublist workers := List.eraseIdx_sublist workers j
  have hsubf : rem.flatten.Sublist workers.flatten := sublist_flatten hsub
  have hsort2 : ∀ w ∈ rem, SortedF w := fun w hw => hsort w (hsub.subset hw)
  have hnd2 : NodupF rem.flatten := List.Pairwise.sublist hsubf hnd
  have hpos2 : ∀ f ∈ rem.flatten, 1 ≤ f.frame_number :=
    fun f hf => hpos f (hsubf.subset hf)
  have hwf2 : ∀ w ∈ rem, ∀ f ∈ w, PacketOk f :=
    fun w hw => hwf w (hsub.subset hw)
  have hp := pipeline_correct hsort2 hnd2 hpos2 hwf2
  set M := maxFrameNumber rem.flatten with hMdef
  have hndd : NodupF (rem.flatten.map decFrame) := nodupF_map_decFrame hnd2
  refine ⟨canonOut (rem.flatten.map decFrame) 1 M, hp, ?_, ?_, ?_, ?_⟩
  · rw [canonOut_fns, Nat.add_sub_cancel]
  · intro f hf
    unfold canonOut
    rw [show M + 1 - 1 = M by omega]
    refine List.mem_map.mpr ⟨f.frame_number, ?_, ?_⟩
    · refine List.mem_range'_1.mpr ⟨hpos2 f hf, ?_⟩
      have := le_maxFrameNumber hf
      omega
    · exact canonEntry_mem hndd (List.mem_map_of_mem _ hf) rfl
  · intro k hk1 hkM habs
    unfold canonOut
    rw [show M + 1 - 1 = M by omega]
    refine List.mem_map.mpr ⟨k, List.mem_range'_1.mpr ⟨hk1, by omega⟩, ?_⟩
    apply canonEntry_not_mem
    intro g hg
    obtain ⟨f, hf, rfl⟩ := List.mem_map.mp hg
    exact habs f hf
  · intro f hf
    have hmem : f.frame_number ∈
        (canonOut (rem.flatten.map decFrame) 1 M).map
          (fun g => g.frame_number) :=
      List.mem_map_of_mem _ hf
    rw [canonOut_fns] at hmem
    have := List.mem_range'_1.mp hmem
    omega

theorem claim_c7_missing_witness :
    ∃ out, pipelineOut (c7workers.eraseIdx 1) =
        some (out, MergeEnd.finished) ∧
      out.map (fun f => f.frame_number) =
        List.range' 1 (maxFrameNumber (c7workers.eraseIdx 1).flatten) ∧
      (∀ f ∈ (c7workers.eraseIdx 1).flatten, decFrame f ∈ out) ∧
      (∀ k, 1 ≤ k → k ≤ maxFrameNumber (c7workers.eraseIdx 1).flatten →
        (∀ f ∈ (c7workers.eraseIdx 1).flatten, f.frame_number ≠ k) →
        missingFrame k ∈ out) ∧
      (∀ f ∈ out,
        f.frame_number ≤ maxFrameNumber (c7workers.eraseIdx 1).flatten) :=
  claim_c7_missing 1 (by decide) (by decide) (by decide) (by decide)

/-- C8: the encode sink, fed `[bytes_a, empty, empty, bytes_b]` with both
non-empty, performs exactly four writes to the encoder's stdin, re-writing
`bytes_a` for each of the two empty records; and an empty record arriving
while no previous bytes are cached writes nothing and leaves the sink
unchanged. -/
theorem claim_c8_duplicate_frames :
    (∀ a b : List Nat, a ≠ [] → b ≠ [] →
      (ffmpegRun [a, [], [], b]).writes = [a, a, a, b]) ∧
    (∀ s : PipeState, s.prev_bytes = none → ffmpegWrite s [] = s) := by
  constructor
  · intro a b ha hb
    have ha2 : a.isEmpty = false := by revert ha; cases a <;> simp
    have hb2 : b.isEmpty = false := by revert hb; cases b <;> simp
    simp [ffmpegRun, ffmpegWrite, pipeInit, ha2, hb2]
  · intro s h
    unfold ffmpegWrite
    rw [h]
    simp

theorem claim_c8_duplicate_frames_witness :
    (ffmpegRun [[1], [], [], [2]]).writes = [[1], [1], [1], [2]] ∧
    ffmpegWrite pipeInit [] = pipeInit :=
  ⟨claim_c8_duplicate_frames.1 [1] [2] (by decide) (by decide),
   claim_c8_duplicate_frames.2 pipeInit rfl⟩

def c3events : List CapEvent := [.capture 8, .capture 8, .capture 8]

/-- C3, counterexample: with budget 10 and three frames of 8 bytes each,
the shared counter transiently reaches 24 during the third frame's
reservation — exceeding the budget by 14, more than any single frame's
size — so the claim as stated ("never exceeds B by more than one frame's
size at any point") fails. -/
theorem claim_c3_counterexample :
    (∀ ev ∈ c3events, ev.size ≤ 8) ∧
    24 ∈ (capRun 10 c3events).trace ∧ 10 + 8 < 24 := by decide

/-- Invariant of the budget state machine: the counter is the total of
the live kept frames, every live frame respects the size bound, the
counter at rest never exceeds `B + F`, and no value the counter ever took
exceeded `B + 2F`. -/
def CapInv (B F : Nat) (s : CapState) : Prop :=
  s.counter = s.live.sum ∧ (∀ x ∈ s.live, x ≤ F) ∧ s.counter ≤ B + F ∧
  ∀ v ∈ s.trace, v ≤ B + 2 * F

theorem capStep_inv {B F : Nat} (hword : B + 2 * F < 2 ^ 64) {s : CapState}
    {ev : CapEvent} (hsz : ev.size ≤ F)
    (hrel : ∀ f, ev = .release f → s.live.contains f = true)
    (hinv : CapInv B F s) : CapInv B F (capStep B s ev) := by
  obtain ⟨hsum, hliveF, hbound, htrace⟩ := hinv
  cases ev with
  | capture f =>
    have hf : f ≤ F := hsz
    have hmid : (s.counter + f) % 2 ^ 64 = s.counter + f :=
      Nat.mod_eq_of_lt (by omega)
    have hrevert : usizeSub ((s.counter + f) % 2 ^ 64) f = s.counter := by
      rw [hmid, usizeSub_exact (by omega) (by omega)]
      omega
    have hrev2 : usizeSub (s.counter + f) f = s.counter := by
      rw [← hmid]
      exact hrevert
    simp only [capStep]
    by_cases hb : B < s.counter
    · rw [if_pos hb]
      refine ⟨?_, ?_, ?_, ?_⟩
      · show usizeSub ((s.counter + f) % 2 ^ 64) f = s.live.sum
        exact hrevert.trans hsum
      · show ∀ x ∈ s.live, x ≤ F
        exact hliveF
      · show usizeSub ((s.counter + f) % 2 ^ 64) f ≤ B + F
        rw [hrevert]
        exact hbound
      · show ∀ v ∈ s.trace ++ [(s.counter + f) % 2 ^ 64,
          usizeSub ((s.counter + f) % 2 ^ 64) f], v ≤ B + 2 * F
        intro v hv
        rcases List.mem_append.mp hv with hv1 | hv2
        · exact htrace v hv1
        · rw [hmid, hrev2] at hv2
          rcases List.mem_cons.mp hv2 with rfl | hv3
          · omega
          · have hvv : v = s.counter := by simpa using hv3
            omega
    · rw [if_neg hb]
      push_neg at hb
      refine ⟨?_, ?_, ?_, ?_⟩
      · show (s.counter + f) % 2 ^ 64 = (s.live ++ [f]).sum
        rw [hmid, List.sum_append, List.sum_cons, List.sum_nil, hsum]
        omega
      · show ∀ x ∈ s.live ++ [f], x ≤ F
        intro x hx
        rcases List.mem_append.mp hx with hx1 | hx2
        · exact hliveF x hx1
        · have hxx : x = f := by simpa using hx2
          omega
      · show (s.counter + f) % 2 ^ 64 ≤ B + F
        rw [hmid]
        omega
      · show ∀ v ∈ s.trace ++ [(s.counter + f) % 2 ^ 64], v ≤ B + 2 * F
        intro v hv
        rcases List.mem_append.mp hv with hv1 | hv2
        · exact htrace v hv1
        · have hvv : v = (s.counter + f) % 2 ^ 64 := by simpa using hv2
          rw [hvv, hmid]
          omega
  | release f =>
    have hmem : f ∈ s.live := by
      have := hrel f rfl
      simpa using this
    have hfc : f ≤ s.counter := hsum ▸ mem_le_sum hmem
    have hsub : usizeSub s.counter f = s.counter - f :=
      usizeSub_exact hfc (by omega)
    simp only [capStep]
    refine ⟨?_, ?_, ?_, ?_⟩
    · show usizeSub s.counter f = (s.live.erase f).sum
      rw [hsub, sum_erase_of_mem hmem, hsum]
    · show ∀ x ∈ s.live.erase f, x ≤ F
      intro x hx
      exact hliveF x (List.mem_of_mem_erase hx)
    · show usizeSub s.counter f ≤ B + F
      rw [hsub]
      omega
    · show ∀ v ∈ s.trace ++ [usizeSub s.counter f], v ≤ B + 2 * F
      intro v hv
      rcases List.mem_append.mp hv with hv1 | hv2
      · exact htrace v hv1
      · have hvv : v = usizeSub s.counter f := by simpa using hv2
        rw [hvv, hsub]
        omega

theorem capRunFrom_inv {B F : Nat} (hword : B + 2 * F < 2 ^ 64) :
    ∀ (evs : List CapEvent) (s : CapState),
      capValidFrom B s evs = true → (∀ ev ∈ evs, ev.size ≤ F) →
      CapInv B F s → CapInv B F (evs.foldl (capStep B) s) := by
  intro evs
  induction evs with
  | nil => intro s _ _ hinv; exact hinv
  | cons ev r ih =>
    intro s hval hsz hinv
    cases ev with
    | capture f =>
      have hval' : capValidFrom B (capStep B s (.capture f)) r = true := hval
      refine ih _ hval' (fun e he => hsz e (List.mem_cons_of_mem _ he)) ?_
      exact capStep_inv hword (hsz _ (List.mem_cons_self _ _))
        (fun f' hc => by cases hc) hinv
    | release f =>
      have hval' := hval
      unfold capValidFrom at hval'
      rw [Bool.and_eq_true] at hval'
      refine ih _ hval'.2 (fun e he => hsz e (List.mem_cons_of_mem _ he)) ?_
      exact capStep_inv hword (hsz _ (List.mem_cons_self _ _))
        (fun f' hc => by cases hc; exact hval'.1) hinv

/-- C3, amended: under budget `B`, with every frame at most `F` bytes and
only live frames released, the counter at rest never exceeds `B + F` (one
frame's size), and no transient value ever exceeds `B + 2F` (one kept
frame plus the frame under reservation); a reservation made while the
counter already exceeds `B` is reverted in full and its frame — and only
such a frame — is the one marked `Dropped`. -/
theorem claim_c3_budget {B F : Nat} {evs : List CapEvent}
    (hword : B + 2 * F < 2 ^ 64)
    (hsz : ∀ ev ∈ evs, ev.size ≤ F)
    (hval : capValid B evs = true) :
    ((capRun B evs).counter ≤ B + F) ∧
    (∀ v ∈ (capRun B evs).trace, v ≤ B + 2 * F) ∧
    (∀ f, f ≤ F → B < (capRun B evs).counter →
      (capRun B (evs ++ [.capture f])).counter = (capRun B evs).counter ∧
      (capRun B (evs ++ [.capture f])).dropped =
        (capRun B evs).dropped ++ [true]) ∧
    (∀ f, (capRun B evs).counter ≤ B →
      (capRun B (evs ++ [.capture f])).dropped =
        (capRun B evs).dropped ++ [false]) := by
  have hinv0 : CapInv B F capInit := by
    refine ⟨rfl, by simp [capInit], by simp [capInit], ?_⟩
    intro v hv
    have : v = 0 := by simpa [capInit] using hv
    omega
  have hinv : CapInv B F (capRun B evs) :=
    capRunFrom_inv hword evs capInit hval hsz hinv0
  obtain ⟨hsum, hliveF, hbound, htrace⟩ := hinv
  have happ : ∀ f, capRun B (evs ++ [CapEvent.capture f]) =
      capStep B (capRun B evs) (.capture f) := by
    intro f
    unfold capRun
    rw [List.foldl_append]
    rfl
  refine ⟨hbound, htrace, ?_, ?_⟩
  · intro f hf hb
    rw [happ f]
    simp only [capStep]
    rw [if_pos hb]
    have hmid : ((capRun B evs).counter + f) % 2 ^ 64 =
        (capRun B evs).counter + f := Nat.mod_eq_of_lt (by omega)
    have hrevert : usizeSub (((capRun B evs).counter + f) % 2 ^ 64) f =
        (capRun B evs).counter := by
      rw [hmid, usizeSub_exact (by omega) (by omega)]
      omega
    exact ⟨hrevert, rfl⟩
  · intro f hb
    rw [happ f]
    simp only [capStep]
    rw [if_neg (by omega)]

theorem claim_c3_budget_witness :
    (10 + 2 * 8 < 2 ^ 64) ∧
    (∀ ev ∈ [CapEvent.capture 8, CapEvent.release 8], ev.size ≤ 8) ∧
    capValid 10 [CapEvent.capture 8, CapEvent.release 8] = true ∧
    (capRun 10 [CapEvent.capture 8, CapEvent.release 8]).counter ≤ 10 + 8 :=
  ⟨by decide, by decide, by decide,
    (@claim_c3_budget 10 8 [CapEvent.capture 8, CapEvent.release 8]
      (by decide) (by decide) (by decide)).1⟩

/-- C4: divergence of `capture_stream.rs` from the claimed invariant.
With budget 0 and two 5-byte frames, the second frame is `Dropped` and its
reservation reverted; yet in the `CaptureStream` path `StreamFrame::drop`
decrements the counter unconditionally, so after both frames are delivered
and destroyed the counter has wrapped to `2^64 - 5` instead of 0 — the
Dropped record's lifetime net effect is `-frame_size`, not zero.  The
`VideoRecorder` path (`video_frame.rs`), whose `Drop` decrements only when
the record still owns a payload, restores the counter to 0 exactly as the
claim states. -/
theorem claim_c4_drop_decrement :
    streamFinalCounter 0 [5, 5] = 2 ^ 64 - 5 ∧
    videoFinalCounter 0 [5, 5] = 0 ∧
    (streamCaptureAll 0 [5, 5]).2 = [(5, true), (5, false)] ∧
    (2 ^ 64 - 5 : Nat) ≠ 0 := by decide

/-- Delivery-order invariant of the `VideoRecorder` machine: delivered
frame numbers form the initial segment 1.., the queue continues it
consecutively, and `frame_number` counts every render. -/
def RecInv (s : RecState) : Prop :=
  s.delivered = List.range' 1 s.delivered.length ∧
  s.video_frames.map Prod.fst =
    List.range' (s.delivered.length + 1) s.video_frames.length ∧
  s.frame_number = s.delivered.length + s.video_frames.length

theorem recProcess_inv : ∀ (fuel : Nat) (s : RecState), RecInv s →
    RecInv (recProcess fuel s) := by
  intro fuel
  induction fuel with
  | zero => intro s hs; exact hs
  | succ fuel ih =>
    intro s hs
    obtain ⟨fn, c, vfs, fss, del, pan⟩ := s
    obtain ⟨hdel, hque, hfn⟩ := hs
    dsimp only at hdel hque hfn
    cases vfs with
    | nil => exact ⟨hdel, hque, hfn⟩
    | cons vf vrest =>
      cases fss with
      | nil => exact ⟨hdel, hque, hfn⟩
      | cons st strest =>
        show RecInv (if st = 0 ∨ st = 2 then
          recProcess fuel ⟨fn, c, vrest, strest, del ++ [vf.1], pan⟩
          else if st = 1 then ⟨fn, c, vf :: vrest, st :: strest, del, pan⟩
          else ⟨fn, c, vf :: vrest, st :: strest, del, true⟩)
        have hque2 := hque
        simp only [List.map_cons, List.length_cons] at hque2
        rw [List.range'_succ] at hque2
        have hvf1 : vf.1 = del.length + 1 := (List.cons.injEq .. ▸ hque2).1
        have hqrest : vrest.map Prod.fst =
            List.range' (del.length + 1 + 1) vrest.length :=
          (List.cons.injEq .. ▸ hque2).2
        have hfn2 := hfn
        simp only [List.length_cons] at hfn2
        by_cases hst : st = 0 ∨ st = 2
        · rw [if_pos hst]
          apply ih
          refine ⟨?_, ?_, ?_⟩
          · show del ++ [vf.1] = List.range' 1 (del ++ [vf.1]).length
            have hl : (del ++ [vf.1]).length = del.length + 1 := by simp
            rw [hl, hvf1, List.range'_concat, ← hdel]
            simp [Nat.add_comm]
          · show vrest.map Prod.fst =
              List.range' ((del ++ [vf.1]).length + 1) vrest.length
            rw [hqrest]
            congr 1
            simp
          · show fn = (del ++ [vf.1]).length + vrest.length
            simp only [List.length_append, List.length_cons, List.length_nil]
            omega
        · rw [if_neg hst]
          by_cases hst1 : st = 1
          · rw [if_pos hst1]
            exact ⟨hdel, hque, hfn⟩
          · rw [if_neg hst1]
            exact ⟨hdel, hque, hfn⟩

theorem recStep_inv {B : Nat} {s : RecState} (ev : RecEvent)
    (hs : RecInv s) : RecInv (recStep B s ev) := by
  obtain ⟨hdel, hque, hfn⟩ := hs
  unfold recStep
  by_cases hp : s.panicked
  · rw [if_pos hp]
    exact ⟨hdel, hque, hfn⟩
  · rw [if_neg hp]
    cases ev with
    | render size =>
      show RecInv (recRender B s size)
      unfold recRender
      have happ : ∀ b : Bool,
          (s.video_frames ++ [(s.frame_number + 1, b)]).map Prod.fst =
            List.range' (s.delivered.length + 1)
              (s.video_frames ++ [(s.frame_number + 1, b)]).length := by
        intro b
        rw [List.map_append, hque, List.length_append]
        simp only [List.map_cons, List.map_nil, List.length_cons,
          List.length_nil]
        rw [List.range'_concat]
        congr 2
        omega
      have hlen : ∀ b : Bool, s.frame_number + 1 = s.delivered.length +
          (s.video_frames ++ [(s.frame_number + 1, b)]).length := by
        intro b
        rw [List.length_append]
        simp only [List.length_cons, List.length_nil]
        omega
      by_cases hb : B < s.counter
      · rw [if_pos hb]
        exact ⟨hdel, happ false, hlen false⟩
      · rw [if_neg hb]
        exact ⟨hdel, happ true, hlen true⟩
    | initiate =>
      exact ⟨hdel, hque, hfn⟩
    | mapResult i ok =>
      show RecInv (recMapResult s i ok)
      unfold recMapResult
      by_cases hc : i < s.frame_states.length ∧ s.frame_states.getD i 0 = 1
      · rw [if_pos hc]
        exact ⟨hdel, hque, hfn⟩
      · rw [if_neg hc]
        exact ⟨hdel, hque, hfn⟩
    | process =>
      exact recProcess_inv _ _ ⟨hdel, hque, hfn⟩

theorem recRun_inv {B : Nat} : ∀ (evs : List RecEvent) (s : RecState),
    RecInv s → RecInv (evs.foldl (recStep B) s) := by
  intro evs
  induction evs with
  | nil => intro s hs; exact hs
  | cons ev r ih => intro s hs; exact ih _ (recStep_inv ev hs)

theorem recProcess_pending : ∀ (fuel : Nat) (s : RecState),
    s.frame_states.head? = some 1 → recProcess fuel s = s := by
  intro fuel s h
  obtain ⟨fn, c, vfs, fss, del, pan⟩ := s
  cases fuel with
  | zero => rfl
  | succ fuel =>
    cases vfs with
    | nil => rfl
    | cons vf vrest =>
      cases fss with
      | nil => simp at h
      | cons st strest =>
        have hst : st = 1 := by simpa using h
        subst hst
        show (if (1 : Nat) = 0 ∨ (1 : Nat) = 2 then
          recProcess fuel ⟨fn, c, vrest, strest, del ++ [vf.1], pan⟩
          else if (1 : Nat) = 1 then ⟨fn, c, vf :: vrest, 1 :: strest, del, pan⟩
          else ⟨fn, c, vf :: vrest, 1 :: strest, del, true⟩) =
          ⟨fn, c, vf :: vrest, 1 :: strest, del, pan⟩
        rw [if_neg (by omega), if_pos rfl]

/-- C5: within one session the capture stage delivers records in strictly
increasing frame_number order starting at 1 with no gaps and no
duplicates; `frame_number` is incremented for every render whether or not
the frame is dropped; and when the oldest queued record's map is still
pending, `process_mapped_buffers` delivers nothing — later records are
never delivered out of turn. -/
theorem claim_c5_capture_order (B : Nat) (evs : List RecEvent) :
    (recRun B evs).delivered =
      List.range' 1 (recRun B evs).delivered.length ∧
    (recRun B evs).video_frames.map Prod.fst =
      List.range' ((recRun B evs).delivered.length + 1)
        (recRun B evs).video_frames.length ∧
    (recRun B evs).frame_number =
      (recRun B evs).delivered.length +
        (recRun B evs).video_frames.length ∧
    ((recRun B evs).frame_states.head? = some 1 →
      (recStep B (recRun B evs) .process).delivered =
        (recRun B evs).delivered) := by
  have hinv : RecInv (recRun B evs) :=
    recRun_inv evs recInit ⟨rfl, rfl, rfl⟩
  obtain ⟨hdel, hque, hfn⟩ := hinv
  refine ⟨hdel, hque, hfn, ?_⟩
  intro hpend
  unfold recStep
  by_cases hp : (recRun B evs).panicked
  · rw [if_pos hp]
  · rw [if_neg hp]
    show (recProcess (recRun B evs).video_frames.length
      (recRun B evs)).delivered = (recRun B evs).delivered
    rw [recProcess_pending _ _ hpend]

theorem claim_c5_capture_order_witness :
    (recRun 100 [RecEvent.render 5, RecEvent.initiate]).frame_states.head?
      = some 1 ∧
    (recStep 100 (recRun 100 [RecEvent.render 5, RecEvent.initiate])
      RecEvent.process).delivered =
      (recRun 100 [RecEvent.render 5, RecEvent.initiate]).delivered :=
  ⟨by decide,
    (claim_c5_capture_order 100 [RecEvent.render 5, RecEvent.initiate]).2.2.2
      (by decide)⟩

end Renderer
